import Mathlib

/-!
A verification development for the gregex regular-expression engine.

This file gives a shallow embedding, in Lean 4, of the core of the
engine: the data model (`src/util.rs`), the Thompson bytecode and its
compiler (`src/thompson/bytecode.rs`), the Pike-VM interpreter
(`src/thompson/pike_vm.rs`) and the dispatch facade with its
all-matches iterators (`src/regex.rs`).  Theorems about the embedded
definitions settle a list of claims made by the specification.

Modelling conventions:
* Rust `usize`/`u32` values are `Nat`; no arithmetic here can overflow
  in the source (positions are bounded by the subject length).
* The engine's `Char` (a `u32` wrapper with an `INPUT_BOUND` sentinel)
  is `UChar`.  Subjects are `List Char` (Lean chars are exactly Rust
  `char`s: unicode scalar values); byte positions are recovered through
  the UTF-8 width of each char, mirroring the byte-oriented Rust code.
* The interpreter's capture-group slab (`cg_arrays` plus the `cg_free`
  free list) is memory management: each live thread owns a region of
  `result_len` spans.  It is embedded by giving each `Thread` its own
  `caps : List Span` of that length; `dup` copies it, `free` is a
  no-op.  Slab indexing that would be out of bounds in Rust (a panic)
  is a dropped write here; the claims never depend on that corner.
* The Pike-VM `step` loop has no termination measure in the source (it
  really can loop forever, see the theorems about nullable loops), so
  the simulation functions take explicit fuel and return `none` when
  the fuel runs out.  All other recursion is structural.
-/

set_option maxRecDepth 10000

namespace Gregex

/-- Models `util::Char`: a `u32` code-point wrapper. -/
structure UChar where
  val : Nat
deriving DecidableEq, Repr

/-- `Char::INPUT_BOUND = u32::MAX`: the virtual character before the
start and after the end of the input. -/
def UChar.INPUT_BOUND : UChar := ⟨4294967295⟩

/-- Models `impl From<char> for Char` (the code point as `u32`). -/
def UChar.ofChar (c : Char) : UChar := ⟨c.toNat⟩

instance : LT UChar := ⟨fun a b => a.val < b.val⟩
instance : LE UChar := ⟨fun a b => a.val ≤ b.val⟩

instance (a b : UChar) : Decidable (a < b) :=
  inferInstanceAs (Decidable (a.val < b.val))

instance (a b : UChar) : Decidable (a ≤ b) :=
  inferInstanceAs (Decidable (a.val ≤ b.val))

/-- Models `util::Span` (a half-open byte range).  The Rust fields are
named `from`/`to`; `from` is a Lean keyword, so they are `lo`/`hi`
here. -/
structure Span where
  lo : Nat
  hi : Nat
deriving DecidableEq, Repr

/-- `Span::invalid()`: `{from: usize::MAX, to: 0}`. -/
def Span.invalid : Span := ⟨18446744073709551615, 0⟩

/-- `Span::valid()`: `from <= to`. -/
def Span.valid (s : Span) : Bool := decide (s.lo ≤ s.hi)

/-- `Span::empty()`: `from == to`. -/
def Span.isEmptySpan (s : Span) : Bool := decide (s.lo = s.hi)

/-- Rust `char::len_utf8`. -/
def lenUtf8 (c : Char) : Nat :=
  if c.toNat < 0x80 then 1
  else if c.toNat < 0x800 then 2
  else if c.toNat < 0x10000 then 3
  else 4

/-- Byte length of a subject (`str::len`). -/
def utf8Len : List Char → Nat
  | [] => 0
  | c :: rest => lenUtf8 c + utf8Len rest

/-- Rust `str::is_char_boundary`: the byte index is 0, the total
length, or the start of an encoded character. -/
def isCharBoundary : List Char → Nat → Bool
  | _, 0 => true
  | [], _ + 1 => false
  | c :: rest, n + 1 =>
    if n + 1 < lenUtf8 c then false else isCharBoundary rest (n + 1 - lenUtf8 c)

/-- The chars of `s[n..]` for a byte index `n` (lands on junk only for
indices that are not char boundaries, which callers rule out). -/
def skipBytes : List Char → Nat → List Char
  | s, 0 => s
  | [], _ + 1 => []
  | c :: rest, n + 1 => skipBytes rest (n + 1 - lenUtf8 c)

/-- The chars occupying the first `n` bytes of `s`. -/
def takeBytes : List Char → Nat → List Char
  | _, 0 => []
  | [], _ + 1 => []
  | c :: rest, n + 1 => c :: takeBytes rest (n + 1 - lenUtf8 c)

/-- The chars of the byte slice `s[lo..hi]` (Rust `&subject[from..to]`). -/
def charsIn (s : List Char) (lo hi : Nat) : List Char :=
  takeBytes (skipBytes s lo) (hi - lo)

/-- UTF-8 encoding of one char (Rust `char::encode_utf8`). -/
def charUtf8Bytes (c : Char) : List Nat :=
  let n := c.toNat
  if n < 0x80 then [n]
  else if n < 0x800 then [0xC0 + n / 0x40, 0x80 + n % 0x40]
  else if n < 0x10000 then
    [0xE0 + n / 0x1000, 0x80 + (n / 0x40) % 0x40, 0x80 + n % 0x40]
  else
    [0xF0 + n / 0x40000, 0x80 + (n / 0x1000) % 0x40, 0x80 + (n / 0x40) % 0x40,
      0x80 + n % 0x40]

/-- The byte string of a subject (Rust `str::as_bytes`). -/
def utf8Bytes : List Char → List Nat
  | [] => []
  | c :: rest => charUtf8Bytes c ++ utf8Bytes rest

/-- `subject.as_bytes()[i]` (0 stands for the out-of-range panic,
which callers rule out). -/
def byteAt (s : List Char) (i : Nat) : Nat := (utf8Bytes s).getD i 0

/-- Models `util::find_prev_char`, scanning back from a byte index to
the previous character. -/
def findPrevCharAux : List Char → Nat → UChar
  | [], _ => UChar.INPUT_BOUND
  | c :: rest, n =>
    if n ≤ lenUtf8 c then UChar.ofChar c else findPrevCharAux rest (n - lenUtf8 c)

def findPrevChar (s : List Char) (upTo : Nat) : UChar :=
  if upTo = 0 then UChar.INPUT_BOUND else findPrevCharAux s upTo

/-- Models `util::Input`. -/
structure Input where
  subject : List Char
  span : Span
  anchored : Bool
  first_match : Bool
deriving DecidableEq, Repr

/-- `Input::valid()`: the span is valid and both endpoints are UTF-8
boundaries of the subject (which also forces them inside it). -/
def Input.valid (i : Input) : Bool :=
  i.span.valid && isCharBoundary i.subject i.span.lo
    && isCharBoundary i.subject i.span.hi

/-- Models `util::Match`: a span over a subject. -/
structure RMatch where
  subject : List Char
  span : Span
deriving DecidableEq, Repr

/-- Models `Match::next_match_start`: where the next non-overlapping
search starts.  For an empty match not at the end of the subject, the
code advances by the UTF-8 width decoded from the leading byte at
`span.from`. -/
def nextMatchStart (m : RMatch) : Nat :=
  if m.span.isEmptySpan then
    if m.span.lo = utf8Len m.subject then m.span.lo + 1
    else
      let b := byteAt m.subject m.span.lo
      if b < 0x80 then m.span.lo + 1
      else if b < 0xE0 then m.span.lo + 2
      else if b < 0xF0 then m.span.lo + 3
      else m.span.lo + 4
  else m.span.hi

/-! ## Bytecode (`thompson/bytecode.rs`) -/

/-- The six anchor assertions of `regex_syntax::hir::Look` that the
engine supports.  (The word-boundary kinds of `regex_syntax` reach a
`todo!()` in the interpreter and are outside every claim, so they are
not modelled.) -/
inductive Look where
  | Start
  | End
  | StartLF
  | EndLF
  | StartCRLF
  | EndCRLF
deriving DecidableEq, Repr

/-- Models `bytecode::Instruction`. -/
inductive Instruction where
  | Consume (c : UChar)
  | ConsumeAny
  | ConsumeClass (ranges : List (UChar × UChar))
  | ConsumeOutlined (id : Nat)
  | Fork2 (a b : Nat)
  | ForkN (branches : List Nat)
  | Jmp (target : Nat)
  | WriteReg (r : Nat)
  | Assertion (look : Look)
  | Accept
deriving DecidableEq, Repr

/-- Models `bytecode::Bytecode`. -/
structure Bytecode where
  instructions : List Instruction
  barriers : List Bool
  outlined_classes : List (List (UChar × UChar))
deriving DecidableEq, Repr

/-! ## Pike-VM interpreter (`thompson/pike_vm.rs`) -/

/-- Models `pike_vm::Thread`.  The source stores `capture_offset`, an
index into the state's capture slab; here the thread owns its
`result_len`-sized region directly (see the header comment). -/
structure Thread where
  pc : Nat
  caps : List Span
deriving DecidableEq, Repr

/-- `Thread::inc_pc`. -/
def Thread.incPc (t : Thread) : Thread := {t with pc := t.pc + 1}

/-- Models `Thread::write_reg`: writes `value` into span slot
`reg / 2` (`from` for even `reg`, `to` for odd), dropping writes whose
slot is at or past `result_len`. -/
def writeRegList (resultLen : Nat) (caps : List Span) (reg value : Nat) : List Span :=
  if resultLen ≤ reg / 2 then caps
  else
    let old := caps.getD (reg / 2) Span.invalid
    if reg % 2 = 0 then caps.set (reg / 2) {old with lo := value}
    else caps.set (reg / 2) {old with hi := value}

/-- Models `pike_vm::State` (minus the capture slab, absorbed into the
threads). -/
structure State where
  active : List Thread
  next : List Thread
  input_pos : Nat
  visited : List Nat
  best_match : Option Thread
  capture_count : Nat
  result_len : Nat
deriving DecidableEq, Repr

/-- `State::new`. -/
def State.new (captureCount stateCount inputPos : Nat) : State :=
  { active := []
    next := []
    input_pos := inputPos
    visited := List.replicate stateCount 0
    best_match := none
    capture_count := captureCount
    result_len := 0 }

/-- `State::new_thread`: a fresh thread whose capture region is filled
with invalid spans. -/
def State.newThread (s : State) (pc : Nat) : Thread :=
  {pc := pc, caps := List.replicate s.result_len Span.invalid}

/-- `State::push_active` (pushes on the front). -/
def State.pushActive (s : State) (t : Thread) : State :=
  {s with active := t :: s.active}

/-- `State::push_next` (pushes on the back). -/
def State.pushNext (s : State) (t : Thread) : State :=
  {s with next := s.next ++ [t]}

/-- `State::accept`: record the thread as tentative best match (with
register 1 set to the current position) and drop all remaining active
threads. -/
def State.accept (s : State) (t : Thread) : State :=
  let t1 : Thread := {t with caps := writeRegList s.result_len t.caps 1 s.input_pos}
  {s with best_match := some t1, active := []}

/-- `State::swap_and_advance_by`. -/
def State.swapAndAdvanceBy (s : State) (step : Nat) : State :=
  {s with input_pos := s.input_pos + step, active := s.next, next := s.active}

/-- `State::reset`. -/
def State.reset (s : State) : State :=
  { s with
    best_match := none
    visited := List.replicate s.visited.length 0
    active := []
    next := []
    result_len := 0 }

/-- Helper of `State::pop_active_until_not_visited` over the queue and
the visited array. -/
def popUntilAux (inputPos : Nat) :
    List Thread → List Nat → Option (Thread × List Thread × List Nat)
  | [], _ => none
  | t :: rest, vis =>
    if vis.getD t.pc 0 ≤ inputPos then some (t, rest, vis.set t.pc (inputPos + 1))
    else popUntilAux inputPos rest vis

/-- `State::pop_active_until_not_visited`: pop threads until one whose
pc was not yet admitted at this input position; stamp and return it.
`none` means the queue was drained (all popped threads were freed). -/
def State.popActiveUntilNotVisited (s : State) : Option (Thread × State) :=
  match popUntilAux s.input_pos s.active s.visited with
  | none => none
  | some (t, rest, vis) => some (t, {s with active := rest, visited := vis})

/-- `State::write_best_match` writes the first
`min(capture_count, result.len())` slots of the winning thread's
capture region into the result, leaving the higher slots unchanged. -/
def copySlots : List Span → Nat → List Span → List Span
  | _, 0, res => res
  | _, _ + 1, [] => []
  | caps, n + 1, _ :: rs => caps.headD Span.invalid :: copySlots caps.tail n rs

def State.writeBestMatch (s : State) (result : List Span) : List Span :=
  match s.best_match with
  | none => result
  | some w => copySlots w.caps (min s.capture_count result.length) result

/-- The class-membership loop shared by `ConsumeClass` and
`ConsumeOutlined` in `PikeVM::step`: ranges are scanned in order, the
scan stops early once `c` is below a range start. -/
def classMatches (c : UChar) : List (UChar × UChar) → Bool
  | [] => false
  | (s, e) :: rest => if c < s then false else if e < c then classMatches c rest else true

/-- The clone pushes of the `ForkN` arm of `PikeVM::step`: clones for
`branches[1..]` are pushed front-most-last, in reverse order. -/
def pushForkClones (s : State) (t : Thread) (branches : List Nat) : State :=
  (branches.reverse.take (branches.length - 1)).foldl
    (fun st p => st.pushActive {t with pc := p}) s

/-- The assertion conditions of the `Assertion` arms of
`PikeVM::step`, verbatim. -/
def assertionHolds (lk : Look) (prev c : UChar) : Bool :=
  match lk with
  | .Start => decide (prev = UChar.INPUT_BOUND)
  | .End => decide (c = UChar.INPUT_BOUND)
  | .StartLF => decide (prev = UChar.INPUT_BOUND ∨ prev = UChar.ofChar '\n')
  | .EndLF => decide (c = UChar.INPUT_BOUND ∨ c = UChar.ofChar '\n')
  | .StartCRLF =>
    decide (prev = UChar.INPUT_BOUND ∨ prev = UChar.ofChar '\n'
      ∨ (prev = UChar.ofChar '\r' ∧ c ≠ UChar.ofChar '\n'))
  | .EndCRLF =>
    decide (c = UChar.INPUT_BOUND ∨ c = UChar.ofChar '\r'
      ∨ (c = UChar.ofChar '\n' ∧ prev ≠ UChar.ofChar '\r'))

/-- Models one thread's inner `loop` of `PikeVM::step`, dispatching on
`instructions[pc]` until the thread consumes, accepts or dies.  The
source has no bound on this loop, hence the fuel (`none` = the loop
ran longer than `fuel`).  An out-of-range pc (a panic in Rust, and
unreachable for compiled bytecode) drops the thread. -/
def runThread (bc : Bytecode) (prev c : UChar) : Nat → Thread → State → Option State
  | 0, _, _ => none
  | fuel + 1, t, s =>
    match bc.instructions[t.pc]? with
    | none => some s
    | some (.Consume c2) => if c2 = c then some (s.pushNext t.incPc) else some s
    | some (.ConsumeClass ranges) =>
      if classMatches c ranges then some (s.pushNext t.incPc) else some s
    | some (.ConsumeOutlined id) =>
      if classMatches c (bc.outlined_classes.getD id []) then some (s.pushNext t.incPc)
      else some s
    | some .ConsumeAny => some (s.pushNext t.incPc)
    | some (.Fork2 a b) =>
      runThread bc prev c fuel {t with pc := a} (s.pushActive {t with pc := b})
    | some (.ForkN branches) =>
      runThread bc prev c fuel {t with pc := branches.headD 0} (pushForkClones s t branches)
    | some (.Jmp target) => runThread bc prev c fuel {t with pc := target} s
    | some (.WriteReg r) =>
      runThread bc prev c fuel
        {pc := t.pc + 1, caps := writeRegList s.result_len t.caps r s.input_pos} s
    | some .Accept => some (s.accept t)
    | some (.Assertion lk) =>
      if assertionHolds lk prev c then runThread bc prev c fuel t.incPc s else some s

/-- Models `PikeVM::step`: drain the active queue through the
visited-set check, running each admitted thread. -/
def stepFuel (bc : Bytecode) (prev c : UChar) : Nat → State → Option State
  | 0, _ => none
  | fuel + 1, s =>
    match s.popActiveUntilNotVisited with
    | none => some {s with active := []}
    | some (t, s1) =>
      match runThread bc prev c fuel t s1 with
      | none => none
      | some s2 => stepFuel bc prev c fuel s2

/-- Models the interpreter handle `pike_vm::PikeVM`. -/
structure PikeVM where
  bytecode : Bytecode
  capture_count : Nat
deriving DecidableEq, Repr

/-- `PikeVM::new_state` (via `RegexImpl::new_state`). -/
def PikeVM.newState (vm : PikeVM) : State :=
  State.new vm.capture_count vm.bytecode.instructions.length 0

/-- Outcome of the per-character `for` loop of `PikeVM::find_captures`:
an early successful return, an early failure return, or falling
through to the final step with the last `prev_char`. -/
inductive LoopOutcome where
  | earlyWrite (s : State)
  | earlyFalse
  | finished (s : State) (prev : UChar)
deriving DecidableEq, Repr

/-- The injection of a fresh start thread (`None if !anchored` arm of
the loop of `PikeVM::find_captures`): a new thread at pc 0 with
register 0 set to the position after the current character. -/
def injectThread (s : State) (c : Char) : State :=
  let t := s.newThread 0
  let t : Thread := {t with caps := writeRegList s.result_len t.caps 0 (s.input_pos + lenUtf8 c)}
  s.pushNext t

/-- Models the `for c in subject[from..to].chars()` loop of
`PikeVM::find_captures`. -/
def mainLoop (bc : Bytecode) (anchored firstMatch : Bool) (fuel : Nat) :
    List Char → UChar → State → Option LoopOutcome
  | [], prev, s => some (.finished s prev)
  | c :: rest, prev, s =>
    match stepFuel bc prev (UChar.ofChar c) fuel s with
    | none => none
    | some s1 =>
      match s1.best_match with
      | some _ =>
        if firstMatch || s1.next.isEmpty then some (.earlyWrite s1)
        else mainLoop bc anchored firstMatch fuel rest (UChar.ofChar c)
          (s1.swapAndAdvanceBy (lenUtf8 c))
      | none =>
        if anchored then some .earlyFalse
        else mainLoop bc anchored firstMatch fuel rest (UChar.ofChar c)
          ((injectThread s1 c).swapAndAdvanceBy (lenUtf8 c))

/-- The character passed to the final `step` of
`PikeVM::find_captures`: `INPUT_BOUND` if the span ends at the end of
the subject, otherwise the subject's character right after the span. -/
def finalStepChar (subject : List Char) (hi : Nat) : UChar :=
  if hi = utf8Len subject then UChar.INPUT_BOUND
  else UChar.ofChar ((skipBytes subject hi).headD 'A')

/-- The entry setup of `PikeVM::find_captures`: set `result_len` and
`input_pos`, create the first thread at pc 0 with register 0 holding
the span start, and push it on the active queue. -/
def entrySetup (s : State) (lo : Nat) (captures : List Span) : State :=
  let s := {s with result_len := captures.length, input_pos := lo}
  let t := s.newThread 0
  let t : Thread := {t with caps := writeRegList s.result_len t.caps 0 lo}
  s.pushActive t

/-- Models `PikeVM::find_captures` (the `exec` entry point of the
interpreter): returns `(matched, captures)` or `none` if the step
fuel ran out.  `captures` plays the role of the in-out `&mut [Span]`
argument. -/
def findCapturesFuel (vm : PikeVM) (input : Input) (s : State) (captures : List Span)
    (fuel : Nat) : Option (Bool × List Span) :=
  if ¬ input.valid then some (false, captures)
  else
    let s := entrySetup s input.span.lo captures
    let prev := findPrevChar input.subject input.span.lo
    match mainLoop vm.bytecode input.anchored input.first_match fuel
        (charsIn input.subject input.span.lo input.span.hi) prev s with
    | none => none
    | some .earlyFalse => some (false, captures)
    | some (.earlyWrite s1) => some (true, s1.writeBestMatch captures)
    | some (.finished s1 prev1) =>
      match stepFuel vm.bytecode prev1 (finalStepChar input.subject input.span.hi) fuel s1 with
      | none => none
      | some s2 =>
        if s2.best_match.isSome then some (true, s2.writeBestMatch captures)
        else some (false, captures)

/-- Modelled from the spec: identical to `findCapturesFuel` except
that the final step always uses `curr_char = INPUT_BOUND`, as the
specification's description of the outer loop prescribes ("After the
last byte, perform one final Step with `curr_char = INPUT_BOUND`"),
even when `span.to` is strictly inside the subject.  Used to compare
the code against the claimed behaviour. -/
def findCapturesSpecFinal (vm : PikeVM) (input : Input) (s : State) (captures : List Span)
    (fuel : Nat) : Option (Bool × List Span) :=
  if ¬ input.valid then some (false, captures)
  else
    let s := entrySetup s input.span.lo captures
    let prev := findPrevChar input.subject input.span.lo
    match mainLoop vm.bytecode input.anchored input.first_match fuel
        (charsIn input.subject input.span.lo input.span.hi) prev s with
    | none => none
    | some .earlyFalse => some (false, captures)
    | some (.earlyWrite s1) => some (true, s1.writeBestMatch captures)
    | some (.finished s1 prev1) =>
      match stepFuel vm.bytecode prev1 UChar.INPUT_BOUND fuel s1 with
      | none => none
      | some s2 =>
        if s2.best_match.isSome then some (true, s2.writeBestMatch captures)
        else some (false, captures)

/-! ## Dispatch facade and iterators (`regex.rs`).  The facade's
`exec` on the interpreter is `PikeVM::find_captures`. -/

/-- Models `Regex::is_match` (interpreter engine): exec on a fresh
state with `first_match = true` and an empty capture slice. -/
def regexIsMatch (vm : PikeVM) (input : Input) (fuel : Nat) : Option Bool :=
  (findCapturesFuel vm {input with first_match := true} vm.newState [] fuel).map Prod.fst

/-- Models `Regex::find` (interpreter engine): exec on a fresh state
with a single-span capture slice; on success the match is the span in
slot 0. -/
def regexFind (vm : PikeVM) (input : Input) (fuel : Nat) : Option (Option Span) :=
  (findCapturesFuel vm input vm.newState [Span.invalid] fuel).map
    fun r => if r.1 then some (r.2.headD Span.invalid) else none

/-- Models the shared shape of `AllMatch::next` / `AllCaptures::next`
iterated to exhaustion: stop on an invalid span, reset the state, exec
(the spans buffer is reused across iterations), advance the span start
to `next_match_start` of slot 0.  `none` means some exec ran out of
fuel; the fuel also bounds the number of iterations unrolled. -/
def allMatchesFuel (vm : PikeVM) : Input → State → List Span → Nat → Option (List RMatch)
  | _, _, _, 0 => none
  | inp, st, spans, fuel + 1 =>
    if ¬ inp.span.valid then some []
    else
      match findCapturesFuel vm inp st.reset spans fuel with
      | none => none
      | some (false, _) => some []
      | some (true, spans1) =>
        let m : RMatch := {subject := inp.subject, span := spans1.headD Span.invalid}
        match allMatchesFuel vm
            {inp with span := {inp.span with lo := nextMatchStart m}} st spans1 fuel with
        | none => none
        | some ms => some (m :: ms)

/-! ## Compiler (`thompson/bytecode.rs`) -/

/-- Models `regex::Config`.  Only `cg` matters to the compiler
(`unicode` and `case_insensitive` configure the external parser). -/
structure Config where
  unicode : Bool
  case_insensitive : Bool
  cg : Bool
deriving DecidableEq, Repr

def Config.default : Config := ⟨true, false, true⟩

/-- Models the parsed `regex_syntax::hir::Hir` as consumed by the
compiler.  Literals are their decoded characters (the source decodes
the UTF-8 bytes, which it has already checked); classes are their
interval set; the optional name of a capture group is dropped (with
`cg` the source only asserts it is absent). -/
inductive Hir where
  | Empty
  | Literal (chars : List Char)
  | Class (ranges : List (UChar × UChar))
  | Look (look : Look)
  | Repetition (min : Nat) (max : Option Nat) (greedy : Bool) (sub : Hir)
  | Capture (index : Nat) (sub : Hir)
  | Concat (subs : List Hir)
  | Alternation (subs : List Hir)
deriving Repr

/-- Models `bytecode::Compiler` (the `HashMap` of outlined classes is
an association list). -/
structure Compiler where
  instructions : List Instruction
  barriers : List Bool
  outlined_classes : List (List (UChar × UChar))
  outlined_map : List (List (UChar × UChar) × Nat)
  config : Config
deriving DecidableEq, Repr

/-- `Compiler::push`. -/
def Compiler.push (c : Compiler) (i : Instruction) (barrier : Bool) : Compiler :=
  {c with instructions := c.instructions ++ [i], barriers := c.barriers ++ [barrier]}

/-- `Compiler::current_pc`. -/
def Compiler.currentPc (c : Compiler) : Nat := c.instructions.length

/-- Backpatching `self.bytecode.instructions[pc] = i`. -/
def Compiler.setInstr (c : Compiler) (pc : Nat) (i : Instruction) : Compiler :=
  {c with instructions := c.instructions.set pc i}

/-- `self.bytecode.barriers[pc] = true`. -/
def Compiler.setBarrier (c : Compiler) (pc : Nat) : Compiler :=
  {c with barriers := c.barriers.set pc true}

/-- `Compiler::fork2`: greediness orients the two arms. -/
def fork2g (a b : Nat) (greedy : Bool) : Instruction :=
  if greedy then .Fork2 a b else .Fork2 b a

/-- The `HirKind::Literal` arm of `compile_internal`: one `Consume`
per char; only the first gets the incoming barrier flag, and a
non-empty literal returns `false`. -/
def compileLit (barrier : Bool) (c : Compiler) : List Char → Bool × Compiler
  | [] => (barrier, c)
  | ch :: rest => compileLit false (c.push (.Consume (UChar.ofChar ch)) barrier) rest

/-- The `HirKind::Class` arm of `compile_internal`: classes with more
than 4 ranges are outlined (deduplicated by content), the rest are
inline. -/
def compileClass (ranges : List (UChar × UChar)) (barrier : Bool) (c : Compiler) :
    Bool × Compiler :=
  if 4 < ranges.length then
    match c.outlined_map.lookup ranges with
    | some id => (false, c.push (.ConsumeOutlined id) barrier)
    | none =>
      let id := c.outlined_classes.length
      let c := {c with
        outlined_map := (ranges, id) :: c.outlined_map
        outlined_classes := c.outlined_classes ++ [ranges]}
      (false, c.push (.ConsumeOutlined id) barrier)
  else (false, c.push (.ConsumeClass ranges) barrier)

/-- Backpatching loop for the bounded-repetition forks. -/
def patchForks (endPc : Nat) (greedy : Bool) : List Nat → Compiler → Compiler
  | [], c => c
  | fpc :: rest, c => patchForks endPc greedy rest (c.setInstr fpc (fork2g (fpc + 1) endPc greedy))

/-- Backpatching loop for the alternation jumps. -/
def patchJmps (target : Nat) : List Nat → Compiler → Compiler
  | [], c => c
  | jp :: rest, c => patchJmps target rest (c.setInstr jp (.Jmp target))

mutual

/-- Models `Compiler::compile_internal`: takes and returns the barrier
flag threaded through compilation. -/
def compileInternal (h : Hir) (barrier : Bool) (c : Compiler) : Bool × Compiler :=
  match h with
  | .Empty => (barrier, c)
  | .Literal chars => compileLit barrier c chars
  | .Class ranges => compileClass ranges barrier c
  | .Look lk => (false, c.push (.Assertion lk) barrier)
  | .Repetition mn mx greedy sub =>
    let (lastIterStart, b1, c1) := compileTimes sub mn barrier c
    match mx with
    | some mxv =>
      let (forksPc, _, c2) := compileOptTimes sub (mxv - mn) b1 c1
      let endPc := c2.currentPc
      (true, patchForks endPc greedy forksPc c2)
    | none =>
      match lastIterStart with
      | some lis =>
        let c2 := c1.push (fork2g lis (c1.currentPc + 1) greedy) b1
        (false, c2.setBarrier lis)
      | none =>
        let forkPc := c1.currentPc
        let c2 := c1.push (.Fork2 0 0) true
        let (b2, c3) := compileInternal sub false c2
        let c4 := c3.push (.Jmp forkPc) b2
        (false, c4.setInstr forkPc (fork2g (forkPc + 1) c4.currentPc greedy))
  | .Capture index sub =>
    if c.config.cg then
      let c1 := c.push (.WriteReg (index * 2)) barrier
      let (b1, c2) := compileInternal sub false c1
      (false, c2.push (.WriteReg (index * 2 + 1)) b1)
    else compileInternal sub barrier c
  | .Concat subs => compileList subs barrier c
  | .Alternation subs =>
    let currentPc := c.currentPc
    let c1 := c.push .ConsumeAny barrier
    let (tgts, jmps, c2) := compileAlt subs c1
    let c3 := c2.setInstr currentPc (.ForkN tgts)
    (true, patchJmps c2.currentPc jmps c3)
termination_by (sizeOf h, 0)

/-- The `for i in 0..min` loop of the repetition arm; returns the pc
where the last mandatory iteration started, if any. -/
def compileTimes (sub : Hir) (n : Nat) (barrier : Bool) (c : Compiler) :
    Option Nat × Bool × Compiler :=
  match n with
  | 0 => (none, barrier, c)
  | n + 1 =>
    let start := c.currentPc
    let (b1, c1) := compileInternal sub barrier c
    match n with
    | 0 => (some start, b1, c1)
    | m + 1 => compileTimes sub (m + 1) b1 c1
termination_by (sizeOf sub, n + 1)

/-- The `for _ in min..max` loop of the repetition arm; collects the
pcs of the fork placeholders. -/
def compileOptTimes (sub : Hir) (n : Nat) (barrier : Bool) (c : Compiler) :
    List Nat × Bool × Compiler :=
  match n with
  | 0 => ([], barrier, c)
  | n + 1 =>
    let fpc := c.currentPc
    let c1 := c.push (.Fork2 0 0) barrier
    let (b1, c2) := compileInternal sub false c1
    let (rest, b2, c3) := compileOptTimes sub n b1 c2
    (fpc :: rest, b2, c3)
termination_by (sizeOf sub, n + 1)

/-- The `HirKind::Concat` loop. -/
def compileList (hs : List Hir) (barrier : Bool) (c : Compiler) : Bool × Compiler :=
  match hs with
  | [] => (barrier, c)
  | h :: rest =>
    let (b1, c1) := compileInternal h barrier c
    compileList rest b1 c1
termination_by (sizeOf hs, 0)

/-- The `HirKind::Alternation` loop: each branch compiles with barrier
`false`; every branch but the last is followed by a `Jmp` placeholder.
Returns the branch-head pcs and the jump pcs. -/
def compileAlt (hs : List Hir) (c : Compiler) : List Nat × List Nat × Compiler :=
  match hs with
  | [] => ([], [], c)
  | [h] =>
    let tgt := c.currentPc
    let (_, c1) := compileInternal h false c
    ([tgt], [], c1)
  | h :: h2 :: rest =>
    let tgt := c.currentPc
    let (b1, c1) := compileInternal h false c
    let jp := c1.currentPc
    let c2 := c1.push (.Jmp 0) b1
    let (tgts, jmps, c3) := compileAlt (h2 :: rest) c2
    (tgt :: tgts, jp :: jmps, c3)
termination_by (sizeOf hs, 0)

end

/-- Models `Compiler::compile`.  The source first rejects patterns
whose matchable byte sequences are not valid UTF-8; embedded literals
are char lists, hence always valid, so compilation is total here. -/
def Compiler.compile (hir : Hir) (config : Config) : Bytecode :=
  let c0 : Compiler :=
    {instructions := [], barriers := [], outlined_classes := [], outlined_map := [], config}
  let (_, c1) := compileInternal hir false c0
  let c2 := c1.push .Accept false
  {instructions := c2.instructions, barriers := c2.barriers
   outlined_classes := c2.outlined_classes}

/-! ## Concrete patterns and inputs used by the claims.

Capture counts follow `PikeVM::new`: one more than the number of
explicit groups of the pattern. -/

/-- The pattern `ab`. -/
def hirAB : Hir := .Literal ['a', 'b']

def bcAB : Bytecode :=
  ⟨[.Consume ⟨97⟩, .Consume ⟨98⟩, .Accept], [false, false, false], []⟩

def vmAB : PikeVM := ⟨bcAB, 1⟩

/-- `ab` matched against `"ab"`, anchored. -/
def inpABanch : Input := ⟨['a', 'b'], ⟨0, 2⟩, true, false⟩

/-- `ab` matched against `"ab"`, unanchored. -/
def inpAB : Input := ⟨['a', 'b'], ⟨0, 2⟩, false, false⟩

/-- The pattern `a$` (`$` with the default syntax is `Look::End`). -/
def hirC5 : Hir := .Concat [.Literal ['a'], .Look .End]

def bcC5 : Bytecode :=
  ⟨[.Consume ⟨97⟩, .Assertion .End, .Accept], [false, false, false], []⟩

def vmC5 : PikeVM := ⟨bcC5, 1⟩

/-- `a$` matched against `"ab"` on the sub-span `0..1`: the span ends
strictly before the end of the subject. -/
def inpC5 : Input := ⟨['a', 'b'], ⟨0, 1⟩, false, false⟩

/-- The pattern `()*`: an unbounded repetition whose body matches the
empty string. -/
def hirC3 : Hir := .Repetition 0 none true (.Capture 1 .Empty)

def bcC3 : Bytecode :=
  ⟨[.Fork2 1 4, .WriteReg 2, .WriteReg 3, .Jmp 0, .Accept],
   [true, false, false, false, false], []⟩

def vmC3 : PikeVM := ⟨bcC3, 2⟩

/-- An empty subject searched in full. -/
def inpEmpty : Input := ⟨[], ⟨0, 0⟩, false, false⟩

/-- The pattern `(?:)*`. -/
def hirC8 : Hir := .Repetition 0 none true .Empty

def bcC8 : Bytecode := ⟨[.Fork2 1 2, .Jmp 0, .Accept], [true, false, false], []⟩

def vmC8 : PikeVM := ⟨bcC8, 1⟩

/-- The pattern `aa()*|a`. -/
def hirC9 : Hir :=
  .Alternation [.Concat [.Literal ['a', 'a'], .Repetition 0 none true (.Capture 1 .Empty)],
    .Literal ['a']]

def bcC9 : Bytecode :=
  ⟨[.ForkN [1, 8], .Consume ⟨97⟩, .Consume ⟨97⟩, .Fork2 4 7, .WriteReg 2, .WriteReg 3,
    .Jmp 3, .Jmp 9, .Consume ⟨97⟩, .Accept],
   [false, false, false, true, false, false, false, false, false, false], []⟩

def vmC9 : PikeVM := ⟨bcC9, 2⟩

/-- `aa()*|a` matched against `"aa"`. -/
def inpC9 : Input := ⟨['a', 'a'], ⟨0, 2⟩, false, false⟩

/-! ## Epsilon traps: why the interpreter can loop forever.

The inner `loop` of `PikeVM::step` performs no visited check.  If,
from some pc, every reachable instruction is an epsilon instruction
whose continuation stays in a set of pcs, a thread entering the set
never consumes, accepts or dies — the loop never terminates. -/

/-- `S` is an epsilon trap of `bc`: each of its pcs holds a `Fork2`,
`Jmp` or `WriteReg` whose continuation pc is again in `S`. -/
def epsTrap (bc : Bytecode) (S : List Nat) : Bool :=
  S.all fun pc =>
    match bc.instructions[pc]? with
    | some (.Fork2 a _) => S.contains a
    | some (.Jmp t) => S.contains t
    | some (.WriteReg _) => S.contains (pc + 1)
    | _ => false

/-- A thread whose pc lies in an epsilon trap exhausts any fuel. -/
theorem runThread_none_of_epsTrap {bc : Bytecode} {S : List Nat} (hT : epsTrap bc S = true)
    {prev c : UChar} : ∀ fuel (t : Thread) (s : State), t.pc ∈ S →
    runThread bc prev c fuel t s = none := by
  intro fuel
  induction fuel with
  | zero => intro t s _; rfl
  | succ n ih =>
    intro t s ht
    have h := (List.all_eq_true.mp hT) t.pc ht
    cases hinstr : bc.instructions[t.pc]? with
    | none => rw [hinstr] at h; exact absurd h (by simp)
    | some i =>
      rw [hinstr] at h
      cases i with
      | Fork2 a b =>
        simp only [runThread, hinstr]
        exact ih _ _ (by simpa using h)
      | Jmp target =>
        simp only [runThread, hinstr]
        exact ih _ _ (by simpa using h)
      | WriteReg r =>
        simp only [runThread, hinstr]
        exact ih _ _ (by simpa using h)
      | Consume c2 => exact absurd h (by simp)
      | ConsumeAny => exact absurd h (by simp)
      | ConsumeClass ranges => exact absurd h (by simp)
      | ConsumeOutlined id => exact absurd h (by simp)
      | ForkN branches => exact absurd h (by simp)
      | Assertion lk => exact absurd h (by simp)
      | Accept => exact absurd h (by simp)

/-! ## Fuel monotonicity of the simulation. -/

/-- One unfolding of `runThread` at positive fuel, stated so that the
recursive occurrences keep a variable fuel. -/
theorem runThread_unfold (bc : Bytecode) (prev c : UChar) (fuel : Nat) (t : Thread)
    (s : State) :
    runThread bc prev c (fuel + 1) t s =
      match bc.instructions[t.pc]? with
      | none => some s
      | some (.Consume c2) => if c2 = c then some (s.pushNext t.incPc) else some s
      | some (.ConsumeClass ranges) =>
        if classMatches c ranges then some (s.pushNext t.incPc) else some s
      | some (.ConsumeOutlined id) =>
        if classMatches c (bc.outlined_classes.getD id []) then some (s.pushNext t.incPc)
        else some s
      | some .ConsumeAny => some (s.pushNext t.incPc)
      | some (.Fork2 a b) =>
        runThread bc prev c fuel {t with pc := a} (s.pushActive {t with pc := b})
      | some (.ForkN branches) =>
        runThread bc prev c fuel {t with pc := branches.headD 0} (pushForkClones s t branches)
      | some (.Jmp target) => runThread bc prev c fuel {t with pc := target} s
      | some (.WriteReg r) =>
        runThread bc prev c fuel
          {pc := t.pc + 1, caps := writeRegList s.result_len t.caps r s.input_pos} s
      | some .Accept => some (s.accept t)
      | some (.Assertion lk) =>
        if assertionHolds lk prev c then runThread bc prev c fuel t.incPc s else some s :=
  rfl

/-- One unfolding of `stepFuel` at positive fuel. -/
theorem stepFuel_unfold (bc : Bytecode) (prev c : UChar) (fuel : Nat) (s : State) :
    stepFuel bc prev c (fuel + 1) s =
      match s.popActiveUntilNotVisited with
      | none => some {s with active := []}
      | some (t, s1) =>
        match runThread bc prev c fuel t s1 with
        | none => none
        | some s2 => stepFuel bc prev c fuel s2 :=
  rfl

theorem runThread_succ {bc : Bytecode} {prev c : UChar} :
    ∀ {fuel : Nat} {t : Thread} {s : State} {r : State},
    runThread bc prev c fuel t s = some r → runThread bc prev c (fuel + 1) t s = some r := by
  intro fuel
  induction fuel with
  | zero => intro t s r h; exact absurd h (by simp [runThread])
  | succ n ih =>
    intro t s r h
    rw [runThread_unfold] at h
    rw [runThread_unfold]
    cases hinstr : bc.instructions[t.pc]? with
    | none => simp only [hinstr] at h ⊢; exact h
    | some i =>
      simp only [hinstr] at h ⊢
      cases i with
      | Consume c2 => exact h
      | ConsumeAny => exact h
      | ConsumeClass ranges => exact h
      | ConsumeOutlined id => exact h
      | Accept => exact h
      | Fork2 a b => exact ih h
      | ForkN branches => exact ih h
      | Jmp target => exact ih h
      | WriteReg rg => exact ih h
      | Assertion lk =>
        rcases Bool.eq_false_or_eq_true (assertionHolds lk prev c) with hc | hc <;>
          simp only [hc, Bool.false_eq_true, if_false, if_true] at h ⊢
        · exact ih h
        · exact h

theorem runThread_le {bc : Bytecode} {prev c : UChar} {f g : Nat} (hle : f ≤ g)
    {t : Thread} {s r : State} (h : runThread bc prev c f t s = some r) :
    runThread bc prev c g t s = some r := by
  obtain ⟨d, rfl⟩ := Nat.exists_eq_add_of_le hle
  clear hle
  induction d with
  | zero => exact h
  | succ n ih => exact runThread_succ ih

theorem stepFuel_succ {bc : Bytecode} {prev c : UChar} :
    ∀ {fuel : Nat} {s r : State},
    stepFuel bc prev c fuel s = some r → stepFuel bc prev c (fuel + 1) s = some r := by
  intro fuel
  induction fuel with
  | zero => intro s r h; exact absurd h (by simp [stepFuel])
  | succ n ih =>
    intro s r h
    rw [stepFuel_unfold] at h
    rw [stepFuel_unfold]
    cases hpop : s.popActiveUntilNotVisited with
    | none => simp only [hpop] at h ⊢; exact h
    | some ts =>
      obtain ⟨t, s1⟩ := ts
      simp only [hpop] at h ⊢
      cases hrun : runThread bc prev c n t s1 with
      | none => simp only [hrun] at h; exact absurd h (by simp)
      | some s2 =>
        simp only [hrun] at h
        rw [runThread_succ hrun]
        exact ih h

theorem stepFuel_le {bc : Bytecode} {prev c : UChar} {f g : Nat} (hle : f ≤ g)
    {s r : State} (h : stepFuel bc prev c f s = some r) :
    stepFuel bc prev c g s = some r := by
  obtain ⟨d, rfl⟩ := Nat.exists_eq_add_of_le hle
  clear hle
  induction d with
  | zero => exact h
  | succ n ih => exact stepFuel_succ ih

/-- Two defined results of `stepFuel` at any two fuels agree (the
simulation is deterministic; fuel only bounds how far it runs). -/
theorem stepFuel_deterministic {bc : Bytecode} {prev c : UChar} {f g : Nat}
    {s r1 r2 : State} (h1 : stepFuel bc prev c f s = some r1)
    (h2 : stepFuel bc prev c g s = some r2) : r1 = r2 := by
  rcases le_total f g with hle | hle
  · have := stepFuel_le hle h1
    rw [this] at h2
    exact Option.some.inj h2
  · have := stepFuel_le hle h2
    rw [this] at h1
    exact (Option.some.inj h1).symm

/-- A `step` whose first admitted thread sits in an epsilon trap never
returns, whatever the fuel. -/
theorem stepFuel_none_of_trap {bc : Bytecode} {S : List Nat} {prev c : UChar}
    (hT : epsTrap bc S = true) (fuel : Nat) (s : State)
    (h : match s.popActiveUntilNotVisited with
         | some (t, _) => t.pc ∈ S
         | none => False) :
    stepFuel bc prev c fuel s = none := by
  cases fuel with
  | zero => rfl
  | succ n =>
    rw [stepFuel_unfold]
    cases hpop : s.popActiveUntilNotVisited with
    | none => rw [hpop] at h; exact h.elim
    | some ts =>
      obtain ⟨t, s1⟩ := ts
      rw [hpop] at h
      simp only [hpop]
      rw [runThread_none_of_epsTrap hT n t s1 h]

/-- `find_captures` on a valid input, unfolded past the entry setup. -/
theorem findCapturesFuel_valid_eq {vm : PikeVM} {input : Input} {s : State}
    {captures : List Span} {fuel : Nat} (hv : input.valid = true) :
    findCapturesFuel vm input s captures fuel =
      match mainLoop vm.bytecode input.anchored input.first_match fuel
          (charsIn input.subject input.span.lo input.span.hi)
          (findPrevChar input.subject input.span.lo)
          (entrySetup s input.span.lo captures) with
      | none => none
      | some .earlyFalse => some (false, captures)
      | some (.earlyWrite s1) => some (true, s1.writeBestMatch captures)
      | some (.finished s1 prev1) =>
        match stepFuel vm.bytecode prev1 (finalStepChar input.subject input.span.hi) fuel s1 with
        | none => none
        | some s2 =>
          if s2.best_match.isSome then some (true, s2.writeBestMatch captures)
          else some (false, captures) := by
  unfold findCapturesFuel
  rw [hv]
  simp

/-! ## Claim theorems -/

/-- C6, counterexample: the claim says every `Consume*`/`Assertion`
instruction has its barrier flag set; compiling the pattern `a`
produces a `Consume` at index 0 with barrier `false`. -/
theorem c6_counterexample :
    Compiler.compile (.Literal ['a']) Config.default =
      ⟨[.Consume ⟨97⟩, .Accept], [false, false], []⟩ := by
  simp [Compiler.compile, compileInternal, compileLit, Compiler.push, Config.default,
    UChar.ofChar]

/-- C6, amended: the compiler threads a context-dependent barrier flag
instead of marking every `Consume*`/`Assertion`; compiling any
single-character literal pattern, under any configuration, yields
`[Consume c, Accept]` with both barrier flags `false`. -/
theorem c6_single_char_literal_has_no_barriers (ch : Char) (cfg : Config) :
    Compiler.compile (.Literal [ch]) cfg =
      ⟨[.Consume (UChar.ofChar ch), .Accept], [false, false], []⟩ := by
  simp [Compiler.compile, compileInternal, compileLit, Compiler.push]

/-- C2: anchored search is broken in the interpreter.  For the pattern
`ab` on the subject `"ab"` (which matches at the very start of the
span), the anchored search returns `false`: after the first character
the `None` arm returns early instead of swapping the queues.  The same
search without `anchored` finds the match `0..2`.  (Fuel 30 is ample;
the run is finite.) -/
theorem c2_anchored_returns_false_despite_match :
    Compiler.compile hirAB Config.default = bcAB ∧
    findCapturesFuel vmAB inpABanch vmAB.newState [Span.invalid] 30
      = some (false, [Span.invalid]) ∧
    findCapturesFuel vmAB inpAB vmAB.newState [Span.invalid] 30
      = some (true, [⟨0, 2⟩]) := by
  refine ⟨?_, by decide, by decide⟩
  simp [Compiler.compile, compileInternal, compileLit, Compiler.push, hirAB, bcAB,
    Config.default, UChar.ofChar]

/-- C5, counterexample: the claim says the final step always runs with
`curr_char = INPUT_BOUND`, also when `span.to < subject.len()`.  For
`a$` on subject `"ab"` with span `0..1` the code instead feeds the
subject's character `'b'` at position 1 into the final step, so the
end anchor does not fire and the search fails; under the claimed
behaviour (`findCapturesSpecFinal`) it would match `0..1`. -/
theorem c5_counterexample :
    Compiler.compile hirC5 Config.default = bcC5 ∧
    findCapturesFuel vmC5 inpC5 vmC5.newState [Span.invalid] 30
      = some (false, [Span.invalid]) ∧
    findCapturesSpecFinal vmC5 inpC5 vmC5.newState [Span.invalid] 30
      = some (true, [⟨0, 1⟩]) := by
  refine ⟨?_, by decide, by decide⟩
  simp [Compiler.compile, compileInternal, compileList, compileLit, Compiler.push, hirC5,
    bcC5, Config.default, UChar.ofChar]

/-- C5, amended: the final step runs with `curr_char = INPUT_BOUND`
exactly when the span ends at the end of the subject; in that case the
engine behaves as the claim describes (it agrees with the
spec-modelled variant on every state, capture slice and fuel). -/
theorem c5_final_step_input_bound_iff_span_ends_subject (vm : PikeVM) (input : Input)
    (s : State) (captures : List Span) (fuel : Nat)
    (h : input.span.hi = utf8Len input.subject) :
    findCapturesFuel vm input s captures fuel
      = findCapturesSpecFinal vm input s captures fuel := by
  have hc : finalStepChar input.subject input.span.hi = UChar.INPUT_BOUND := by
    unfold finalStepChar
    rw [if_pos h]
  unfold findCapturesFuel findCapturesSpecFinal
  rw [hc]

theorem c5_witness :
    inpAB.span.hi = utf8Len inpAB.subject ∧
    findCapturesFuel vmC5 inpAB vmC5.newState [Span.invalid] 30
      = findCapturesSpecFinal vmC5 inpAB vmC5.newState [Span.invalid] 30 :=
  ⟨by decide, c5_final_step_input_bound_iff_span_ends_subject vmC5 inpAB vmC5.newState
    [Span.invalid] 30 (by decide)⟩

/-- The assertion success conditions exactly as the claim states
them. -/
def assertionSpec (lk : Look) (prev c : UChar) : Prop :=
  match lk with
  | .Start => prev = UChar.INPUT_BOUND
  | .End => c = UChar.INPUT_BOUND
  | .StartLF => prev = UChar.INPUT_BOUND ∨ prev = UChar.ofChar '\n'
  | .EndLF => c = UChar.INPUT_BOUND ∨ c = UChar.ofChar '\n'
  | .StartCRLF =>
    prev = UChar.INPUT_BOUND ∨ prev = UChar.ofChar '\n'
      ∨ (prev = UChar.ofChar '\r' ∧ c ≠ UChar.ofChar '\n')
  | .EndCRLF =>
    c = UChar.INPUT_BOUND ∨ c = UChar.ofChar '\r'
      ∨ (c = UChar.ofChar '\n' ∧ prev ≠ UChar.ofChar '\r')

instance (lk : Look) (prev c : UChar) : Decidable (assertionSpec lk prev c) := by
  unfold assertionSpec
  cases lk <;> infer_instance

/-- C4: a thread reaching `Assertion(k)` continues at the next
instruction exactly when the claim's condition on
`(prev_char, curr_char)` holds, and is dropped (the state is returned
unchanged, the thread gone) otherwise. -/
theorem c4_assertion_semantics (bc : Bytecode) (prev c : UChar) (fuel : Nat) (t : Thread)
    (s : State) (lk : Look) (h : bc.instructions[t.pc]? = some (.Assertion lk)) :
    runThread bc prev c (fuel + 1) t s =
      if assertionSpec lk prev c then runThread bc prev c fuel t.incPc s else some s := by
  rw [runThread_unfold]
  simp only [h]
  have he : (assertionHolds lk prev c = true) ↔ assertionSpec lk prev c := by
    cases lk <;> simp [assertionHolds, assertionSpec]
  exact if_congr he rfl rfl

theorem c4_witness :
    (bcC5.instructions[(Thread.mk 1 []).pc]? = some (.Assertion .End)) ∧
    runThread bcC5 ⟨97⟩ UChar.INPUT_BOUND 2 ⟨1, []⟩ (State.mk [] [] 1 [0, 0, 0] none 1 0) =
      (if assertionSpec .End ⟨97⟩ UChar.INPUT_BOUND then
        runThread bcC5 ⟨97⟩ UChar.INPUT_BOUND 1 (Thread.mk 1 []).incPc
          (State.mk [] [] 1 [0, 0, 0] none 1 0)
      else some (State.mk [] [] 1 [0, 0, 0] none 1 0)) :=
  ⟨by decide, c4_assertion_semantics bcC5 ⟨97⟩ UChar.INPUT_BOUND 1 ⟨1, []⟩
    (State.mk [] [] 1 [0, 0, 0] none 1 0) .End (by decide)⟩

/-- C3: the Pike-VM simulation does not terminate on every compiled
bytecode.  For `()*` (whose repetition body matches the empty string)
on the empty subject, `find_captures` never returns: the inner thread
loop cycles through the `Fork2`/`WriteReg`/`Jmp` instructions without
any visited check, so every fuel is exhausted.  (In Rust this is an
infinite loop, or an out-of-bounds slab panic once the per-iteration
`dup` allocations overrun `cg_arrays`.) -/
theorem c3_nullable_loop_diverges :
    Compiler.compile hirC3 Config.default = bcC3 ∧
    ∀ fuel, findCapturesFuel vmC3 inpEmpty vmC3.newState [Span.invalid, Span.invalid] fuel
      = none := by
  constructor
  · simp [Compiler.compile, compileInternal, compileTimes, Compiler.push, Compiler.setInstr,
      Compiler.setBarrier, Compiler.currentPc, fork2g, hirC3, bcC3, Config.default]
  · intro fuel
    rw [findCapturesFuel_valid_eq (by decide)]
    have hm : mainLoop vmC3.bytecode inpEmpty.anchored inpEmpty.first_match fuel
        (charsIn inpEmpty.subject inpEmpty.span.lo inpEmpty.span.hi)
        (findPrevChar inpEmpty.subject inpEmpty.span.lo)
        (entrySetup vmC3.newState inpEmpty.span.lo [Span.invalid, Span.invalid])
        = some (.finished
            (entrySetup vmC3.newState inpEmpty.span.lo [Span.invalid, Span.invalid])
            UChar.INPUT_BOUND) := rfl
    have hs : stepFuel vmC3.bytecode UChar.INPUT_BOUND
        (finalStepChar inpEmpty.subject inpEmpty.span.hi) fuel
        (entrySetup vmC3.newState inpEmpty.span.lo [Span.invalid, Span.invalid]) = none :=
      stepFuel_none_of_trap (S := [0, 1, 2, 3]) (by decide) fuel _
        (by show (0 : Nat) ∈ [0, 1, 2, 3]; decide)
    simp only [hm, hs]

/-- C8: match time can fail on a valid input.  The first conjunct
pins the bytecode of `(?:)*`; the second shows the documented
behaviour on an invalid input (span `0..2` outside the one-byte
subject `"a"`: no match, nothing written); the third and fourth show a
valid input (the empty subject searched in full) on which
`find_captures` never returns, however much fuel it is given — in
Rust, an infinite loop at match time. -/
theorem c8_match_time_can_fail_on_valid_input :
    Compiler.compile hirC8 Config.default = bcC8 ∧
    (∀ fuel s caps,
      findCapturesFuel vmC8 ⟨['a'], ⟨0, 2⟩, false, false⟩ s caps fuel = some (false, caps)) ∧
    inpEmpty.valid = true ∧
    (∀ fuel, findCapturesFuel vmC8 inpEmpty vmC8.newState [Span.invalid] fuel = none) := by
  refine ⟨?_, fun fuel s caps => rfl, by decide, ?_⟩
  · simp [Compiler.compile, compileInternal, compileTimes, Compiler.push, Compiler.setInstr,
      Compiler.setBarrier, Compiler.currentPc, fork2g, hirC8, bcC8, Config.default]
  · intro fuel
    rw [findCapturesFuel_valid_eq (by decide)]
    have hm : mainLoop vmC8.bytecode inpEmpty.anchored inpEmpty.first_match fuel
        (charsIn inpEmpty.subject inpEmpty.span.lo inpEmpty.span.hi)
        (findPrevChar inpEmpty.subject inpEmpty.span.lo)
        (entrySetup vmC8.newState inpEmpty.span.lo [Span.invalid])
        = some (.finished (entrySetup vmC8.newState inpEmpty.span.lo [Span.invalid])
            UChar.INPUT_BOUND) := rfl
    have hs : stepFuel vmC8.bytecode UChar.INPUT_BOUND
        (finalStepChar inpEmpty.subject inpEmpty.span.hi) fuel
        (entrySetup vmC8.newState inpEmpty.span.lo [Span.invalid]) = none :=
      stepFuel_none_of_trap (S := [0, 1]) (by decide) fuel _
        (by show (0 : Nat) ∈ [0, 1]; decide)
    simp only [hm, hs]

/-- One unfolding of `mainLoop` on a non-empty character list. -/
theorem mainLoop_unfold (bc : Bytecode) (anchored fm : Bool) (fuel : Nat) (c : Char)
    (rest : List Char) (prev : UChar) (s : State) :
    mainLoop bc anchored fm fuel (c :: rest) prev s =
      match stepFuel bc prev (UChar.ofChar c) fuel s with
      | none => none
      | some s1 =>
        match s1.best_match with
        | some _ =>
          if fm || s1.next.isEmpty then some (.earlyWrite s1)
          else mainLoop bc anchored fm fuel rest (UChar.ofChar c)
            (s1.swapAndAdvanceBy (lenUtf8 c))
        | none =>
          if anchored then some .earlyFalse
          else mainLoop bc anchored fm fuel rest (UChar.ofChar c)
            ((injectThread s1 c).swapAndAdvanceBy (lenUtf8 c)) :=
  rfl

/-- The state of the `aa()*|a` search on `"aa"` right after entry. -/
def st0C9 : State :=
  State.mk [⟨0, [⟨0, 0⟩]⟩] [] 0 [0, 0, 0, 0, 0, 0, 0, 0, 0, 0] none 2 1

/-- ... after the step on the first `a`. -/
def st1C9 : State :=
  State.mk [] [⟨2, [⟨0, 0⟩]⟩, ⟨9, [⟨0, 0⟩]⟩] 0 [1, 0, 0, 0, 0, 0, 0, 0, 1, 0] none 2 1

/-- ... after injecting a fresh start thread and swapping. -/
def st1C9' : State :=
  State.mk [⟨2, [⟨0, 0⟩]⟩, ⟨9, [⟨0, 0⟩]⟩, ⟨0, [⟨1, 0⟩]⟩] [] 1
    [1, 0, 0, 0, 0, 0, 0, 0, 1, 0] none 2 1

/-- ... after the step on the second `a`: the `a` branch accepted
(best match `0..1`), and the `aa()*` thread survived into `next` at
the head of the nullable loop (pc 3). -/
def st2C9 : State :=
  State.mk [] [⟨3, [⟨0, 0⟩]⟩] 1 [1, 0, 2, 0, 0, 0, 0, 0, 1, 2]
    (some ⟨9, [⟨0, 1⟩]⟩) 2 1

/-- ... after the last swap, entering the final step. -/
def st2C9' : State :=
  State.mk [⟨3, [⟨0, 0⟩]⟩] [] 2 [1, 0, 2, 0, 0, 0, 0, 0, 1, 2]
    (some ⟨9, [⟨0, 1⟩]⟩) 2 1

/-- The character loop of the `aa()*|a` search on `"aa"` either runs
out of fuel or falls through to the final step in state `st2C9'`. -/
theorem mainLoop_C9 (fuel : Nat) :
    mainLoop bcC9 false false fuel ['a', 'a'] UChar.INPUT_BOUND st0C9 = none ∨
    mainLoop bcC9 false false fuel ['a', 'a'] UChar.INPUT_BOUND st0C9
      = some (.finished st2C9' ⟨97⟩) := by
  rw [mainLoop_unfold]
  cases hs1 : stepFuel bcC9 UChar.INPUT_BOUND (UChar.ofChar 'a') fuel st0C9 with
  | none => left; rfl
  | some s1 =>
    have e1 : s1 = st1C9 :=
      stepFuel_deterministic hs1 (show stepFuel bcC9 UChar.INPUT_BOUND (UChar.ofChar 'a')
        40 st0C9 = some st1C9 by decide)
    subst e1
    simp only [show st1C9.best_match = none from rfl]
    simp only [Bool.false_eq_true, if_false]
    have e2 : (injectThread st1C9 'a').swapAndAdvanceBy (lenUtf8 'a') = st1C9' := by decide
    rw [e2, mainLoop_unfold]
    cases hs2 : stepFuel bcC9 (UChar.ofChar 'a') (UChar.ofChar 'a') fuel st1C9' with
    | none => left; rfl
    | some s2 =>
      have e3 : s2 = st2C9 :=
        stepFuel_deterministic hs2 (show stepFuel bcC9 (UChar.ofChar 'a') (UChar.ofChar 'a')
          40 st1C9' = some st2C9 by decide)
      subst e3
      right
      simp only [show st2C9.best_match = some ⟨9, [⟨0, 1⟩]⟩ from rfl]
      simp only [show (false || st2C9.next.isEmpty) = false from by decide, Bool.false_eq_true,
        if_false]
      have e4 : st2C9.swapAndAdvanceBy (lenUtf8 'a') = st2C9' := by decide
      rw [e4]
      rfl

/-- C9: `is_match` is not equivalent to `find` being some.  On
`aa()*|a` against `"aa"`, `is_match` (which forces
`first_match = true`) returns `true` as soon as the `a` branch
accepts, while `find` keeps simulating the surviving `aa()*` thread
into the nullable loop and never returns (every fuel is exhausted) —
in Rust, `is_match` is `true` but `find` loops forever. -/
theorem c9_is_match_true_but_find_diverges :
    Compiler.compile hirC9 Config.default = bcC9 ∧
    regexIsMatch vmC9 inpC9 40 = some true ∧
    ∀ fuel, regexFind vmC9 inpC9 fuel = none := by
  refine ⟨?_, by decide, ?_⟩
  · simp [Compiler.compile, compileInternal, compileTimes, compileList, compileAlt,
      compileLit, Compiler.push, Compiler.setInstr, Compiler.setBarrier, Compiler.currentPc,
      fork2g, patchJmps, hirC9, bcC9, Config.default, UChar.ofChar]
  · intro fuel
    have hF : findCapturesFuel vmC9 inpC9 vmC9.newState [Span.invalid] fuel = none := by
      rw [findCapturesFuel_valid_eq (by decide)]
      simp only [show vmC9.bytecode = bcC9 from rfl, show inpC9.anchored = false from rfl,
        show inpC9.first_match = false from rfl,
        show charsIn inpC9.subject inpC9.span.lo inpC9.span.hi = ['a', 'a'] from rfl,
        show findPrevChar inpC9.subject inpC9.span.lo = UChar.INPUT_BOUND from rfl,
        show entrySetup vmC9.newState inpC9.span.lo [Span.invalid] = st0C9 from rfl]
      rcases mainLoop_C9 fuel with h | h
      · simp only [h]
      · simp only [h]
        have hs : stepFuel bcC9 ⟨97⟩ (finalStepChar inpC9.subject inpC9.span.hi) fuel st2C9'
            = none :=
          stepFuel_none_of_trap (S := [3, 4, 5, 6]) (by decide) fuel _
            (by show (3 : Nat) ∈ [3, 4, 5, 6]; decide)
        simp only [hs]
    unfold regexFind
    rw [hF]
    rfl

/-! ## Shape preservation: the simulation never changes
`capture_count` or `result_len`, and `step` never changes
`input_pos`. -/

theorem popActive_shape {s : State} {t : Thread} {s1 : State}
    (h : s.popActiveUntilNotVisited = some (t, s1)) :
    s1.capture_count = s.capture_count ∧ s1.result_len = s.result_len ∧
      s1.input_pos = s.input_pos ∧ s1.next = s.next ∧ s1.best_match = s.best_match := by
  unfold State.popActiveUntilNotVisited at h
  cases haux : popUntilAux s.input_pos s.active s.visited with
  | none => rw [haux] at h; exact absurd h (by simp)
  | some tv =>
    obtain ⟨t', rest, vis⟩ := tv
    rw [haux] at h
    simp only [Option.some.injEq, Prod.mk.injEq] at h
    obtain ⟨-, h2⟩ := h
    rw [← h2]
    exact ⟨rfl, rfl, rfl, rfl, rfl⟩

theorem pushForkClones_fields (s : State) (t : Thread) (branches : List Nat) :
    (pushForkClones s t branches).capture_count = s.capture_count ∧
    (pushForkClones s t branches).result_len = s.result_len ∧
    (pushForkClones s t branches).input_pos = s.input_pos ∧
    (pushForkClones s t branches).next = s.next ∧
    (pushForkClones s t branches).best_match = s.best_match ∧
    (pushForkClones s t branches).visited = s.visited := by
  unfold pushForkClones
  generalize branches.reverse.take (branches.length - 1) = l
  induction l generalizing s with
  | nil => exact ⟨rfl, rfl, rfl, rfl, rfl, rfl⟩
  | cons p rest ih => exact ih (s.pushActive {t with pc := p})

theorem runThread_shape {bc : Bytecode} {prev c : UChar} :
    ∀ {fuel : Nat} {t : Thread} {s s' : State},
    runThread bc prev c fuel t s = some s' →
    s'.capture_count = s.capture_count ∧ s'.result_len = s.result_len ∧
      s'.input_pos = s.input_pos := by
  intro fuel
  induction fuel with
  | zero => intro t s s' h; exact absurd h (by simp [runThread])
  | succ n ih =>
    intro t s s' h
    rw [runThread_unfold] at h
    cases hinstr : bc.instructions[t.pc]? with
    | none => simp only [hinstr] at h; cases h; exact ⟨rfl, rfl, rfl⟩
    | some i =>
      cases i with
      | Consume c2 =>
        simp only [hinstr] at h
        split at h <;> (cases h; exact ⟨rfl, rfl, rfl⟩)
      | ConsumeAny => simp only [hinstr] at h; cases h; exact ⟨rfl, rfl, rfl⟩
      | ConsumeClass ranges =>
        simp only [hinstr] at h
        split at h <;> (cases h; exact ⟨rfl, rfl, rfl⟩)
      | ConsumeOutlined id =>
        simp only [hinstr] at h
        split at h <;> (cases h; exact ⟨rfl, rfl, rfl⟩)
      | Accept => simp only [hinstr] at h; cases h; exact ⟨rfl, rfl, rfl⟩
      | Fork2 a b =>
        simp only [hinstr] at h
        have hx := ih h
        exact hx
      | ForkN branches =>
        simp only [hinstr] at h
        have hx := ih h
        obtain ⟨p1, p2, p3, -, -, -⟩ := pushForkClones_fields s t branches
        rw [p1, p2, p3] at hx
        exact hx
      | Jmp target =>
        simp only [hinstr] at h
        have hx := ih h
        exact hx
      | WriteReg rg =>
        simp only [hinstr] at h
        have hx := ih h
        exact hx
      | Assertion lk =>
        simp only [hinstr] at h
        split at h
        · have hx := ih h
          exact hx
        · cases h; exact ⟨rfl, rfl, rfl⟩

theorem stepFuel_shape {bc : Bytecode} {prev c : UChar} :
    ∀ {fuel : Nat} {s s' : State},
    stepFuel bc prev c fuel s = some s' →
    s'.capture_count = s.capture_count ∧ s'.result_len = s.result_len ∧
      s'.input_pos = s.input_pos := by
  intro fuel
  induction fuel with
  | zero => intro s s' h; exact absurd h (by simp [stepFuel])
  | succ n ih =>
    intro s s' h
    rw [stepFuel_unfold] at h
    cases hpop : s.popActiveUntilNotVisited with
    | none => simp only [hpop] at h; cases h; exact ⟨rfl, rfl, rfl⟩
    | some ts =>
      obtain ⟨t, s1⟩ := ts
      simp only [hpop] at h
      cases hrun : runThread bc prev c n t s1 with
      | none => rw [hrun] at h; exact absurd h (by simp)
      | some s2 =>
        rw [hrun] at h
        obtain ⟨e1, e2, e3⟩ := popActive_shape hpop
        obtain ⟨f1, f2, f3⟩ := runThread_shape hrun
        obtain ⟨g1, g2, g3⟩ := ih h
        exact ⟨by rw [g1, f1, e1], by rw [g2, f2, e2], by rw [g3, f3, e3.1]⟩

theorem mainLoop_shape {bc : Bytecode} {anchored fm : Bool} {fuel : Nat} :
    ∀ {chars : List Char} {prev : UChar} {s : State} {out : LoopOutcome},
    mainLoop bc anchored fm fuel chars prev s = some out →
    match out with
    | .earlyWrite s1 => s1.capture_count = s.capture_count ∧ s1.result_len = s.result_len
    | .finished s1 _ => s1.capture_count = s.capture_count ∧ s1.result_len = s.result_len
    | .earlyFalse => True := by
  intro chars
  induction chars with
  | nil =>
    intro prev s out h
    cases h
    exact ⟨rfl, rfl⟩
  | cons c rest ih =>
    intro prev s out h
    rw [mainLoop_unfold] at h
    cases hs1 : stepFuel bc prev (UChar.ofChar c) fuel s with
    | none => simp only [hs1] at h; exact absurd h (by simp)
    | some s1 =>
      simp only [hs1] at h
      obtain ⟨e1, e2, -⟩ := stepFuel_shape hs1
      cases hbm : s1.best_match with
      | some w =>
        simp only [hbm] at h
        split at h
        · cases h
          exact ⟨e1, e2⟩
        · have hx := ih h
          cases out with
          | earlyWrite s2 =>
            have hx' : s2.capture_count = s1.capture_count ∧ s2.result_len = s1.result_len := hx
            exact ⟨hx'.1.trans e1, hx'.2.trans e2⟩
          | finished s2 p2 =>
            have hx' : s2.capture_count = s1.capture_count ∧ s2.result_len = s1.result_len := hx
            exact ⟨hx'.1.trans e1, hx'.2.trans e2⟩
          | earlyFalse => trivial
      | none =>
        simp only [hbm] at h
        split at h
        · cases h; trivial
        · have hx := ih h
          cases out with
          | earlyWrite s2 =>
            have hx' : s2.capture_count = s1.capture_count ∧ s2.result_len = s1.result_len := hx
            exact ⟨hx'.1.trans e1, hx'.2.trans e2⟩
          | finished s2 p2 =>
            have hx' : s2.capture_count = s1.capture_count ∧ s2.result_len = s1.result_len := hx
            exact ⟨hx'.1.trans e1, hx'.2.trans e2⟩
          | earlyFalse => trivial

/-! ## The frame behaviour of `write_best_match`. -/

theorem copySlots_length : ∀ (res : List Span) (caps : List Span) (rl : Nat),
    (copySlots caps rl res).length = res.length := by
  intro res
  induction res with
  | nil => intro caps rl; cases rl <;> rfl
  | cons r rs ih =>
    intro caps rl
    cases rl with
    | zero => rfl
    | succ n => simpa [copySlots] using ih caps.tail n

theorem copySlots_getElem_ge : ∀ (res : List Span) (caps : List Span) (rl i : Nat),
    rl ≤ i → (copySlots caps rl res)[i]? = res[i]? := by
  intro res
  induction res with
  | nil => intro caps rl i _; cases rl <;> rfl
  | cons r rs ih =>
    intro caps rl i hle
    cases rl with
    | zero => rfl
    | succ n =>
      obtain ⟨j, rfl⟩ : ∃ j, i = j + 1 := ⟨i - 1, by omega⟩
      simpa [copySlots] using ih caps.tail n j (by omega)

theorem writeBestMatch_frame (s : State) (result : List Span) :
    (s.writeBestMatch result).length = result.length ∧
    ∀ i, min s.capture_count result.length ≤ i →
      (s.writeBestMatch result)[i]? = result[i]? := by
  unfold State.writeBestMatch
  cases s.best_match with
  | none => exact ⟨rfl, fun i _ => rfl⟩
  | some w =>
    exact ⟨copySlots_length result w.caps _, fun i hi => copySlots_getElem_ge result w.caps _ i hi⟩

/-- Every result of `find_captures` is `none` (fuel), a failure
carrying the unchanged capture slice, or a success whose slice is
`write_best_match` applied by a state with the same `capture_count`
the search started with. -/
theorem findCaptures_result_cases (vm : PikeVM) (input : Input) (s : State)
    (captures : List Span) (fuel : Nat) :
    findCapturesFuel vm input s captures fuel = none ∨
    findCapturesFuel vm input s captures fuel = some (false, captures) ∨
    ∃ s1 : State, s1.capture_count = s.capture_count ∧
      findCapturesFuel vm input s captures fuel = some (true, s1.writeBestMatch captures) := by
  by_cases hv : input.valid = true
  · rw [findCapturesFuel_valid_eq hv]
    cases hml : mainLoop vm.bytecode input.anchored input.first_match fuel
        (charsIn input.subject input.span.lo input.span.hi)
        (findPrevChar input.subject input.span.lo)
        (entrySetup s input.span.lo captures) with
    | none => left; rfl
    | some out =>
      have hsh := mainLoop_shape hml
      cases out with
      | earlyFalse => right; left; rfl
      | earlyWrite s1 =>
        right; right
        exact ⟨s1, hsh.1, rfl⟩
      | finished s1 p1 =>
        cases hsf : stepFuel vm.bytecode p1 (finalStepChar input.subject input.span.hi)
            fuel s1 with
        | none => left; simp [hsf]
        | some s2 =>
          cases hbm : s2.best_match.isSome with
          | false => right; left; simp [hsf, hbm]
          | true =>
            right; right
            refine ⟨s2, ?_, by simp [hsf, hbm]⟩
            exact (stepFuel_shape hsf).1.trans hsh.1
  · right; left
    unfold findCapturesFuel
    rw [if_pos (by simpa using hv)]

/-- C10: the frame property of the interpreter's `exec`
(`find_captures`).  A `false` return leaves the capture slice
untouched; a `true` return keeps its length and writes only slots
`0 .. min(capture_count, captures.len())`, every higher slot being
returned unchanged (writes beyond the slice length are dropped by
`Thread::write_reg`). -/
theorem c10_exec_frame_property (vm : PikeVM) (input : Input) (s : State)
    (captures caps' : List Span) (fuel : Nat)
    (hcc : s.capture_count = vm.capture_count) :
    (findCapturesFuel vm input s captures fuel = some (false, caps') → caps' = captures) ∧
    (findCapturesFuel vm input s captures fuel = some (true, caps') →
      caps'.length = captures.length ∧
      ∀ i, min vm.capture_count captures.length ≤ i → caps'[i]? = captures[i]?) := by
  rcases findCaptures_result_cases vm input s captures fuel with hn | hf | ⟨s1, h1, ht⟩
  · constructor <;> intro h <;> (rw [hn] at h; exact absurd h (by simp))
  · constructor <;> intro h <;> rw [hf] at h <;>
      simp only [Option.some.injEq, Prod.mk.injEq] at h
    · exact h.2.symm
    · exact absurd h.1 (by simp)
  · constructor <;> intro h <;> rw [ht] at h <;>
      simp only [Option.some.injEq, Prod.mk.injEq] at h
    · exact absurd h.1 (by simp)
    · obtain ⟨-, h2⟩ := h
      obtain ⟨hl, hge⟩ := writeBestMatch_frame s1 captures
      subst h2
      rw [h1, hcc] at hge
      exact ⟨hl, hge⟩

theorem c10_witness :
    vmAB.newState.capture_count = vmAB.capture_count ∧
    findCapturesFuel vmAB inpAB vmAB.newState [Span.invalid, ⟨5, 6⟩] 30
      = some (true, [⟨0, 2⟩, ⟨5, 6⟩]) ∧
    (([⟨0, 2⟩, ⟨5, 6⟩] : List Span).length = ([Span.invalid, ⟨5, 6⟩] : List Span).length ∧
      ∀ i, min vmAB.capture_count ([Span.invalid, ⟨5, 6⟩] : List Span).length ≤ i →
        ([⟨0, 2⟩, ⟨5, 6⟩] : List Span)[i]? = ([Span.invalid, ⟨5, 6⟩] : List Span)[i]?) :=
  ⟨rfl, by decide,
    (c10_exec_frame_property vmAB inpAB vmAB.newState [Span.invalid, ⟨5, 6⟩]
      [⟨0, 2⟩, ⟨5, 6⟩] 30 rfl).2 (by decide)⟩

/-! ## The overall-match slot invariant.

Register 0 of every live thread holds the byte position at which the
thread was started (the span start, or an injection position), which
never exceeds the current input position; on accept, register 1
receives the current position.  This gives: every successful search
returns a slot-0 span `lo..hi` with `span.from ≤ lo ≤ hi` — which is
what makes `next_match_start` strictly advance during iteration. -/

/-- Slot 0 (the overall-match span) of a thread's capture region. -/
def capsLo (t : Thread) : Nat := (t.caps.headD Span.invalid).lo

theorem writeRegList_length (rl : Nat) (caps : List Span) (reg val : Nat) :
    (writeRegList rl caps reg val).length = caps.length := by
  unfold writeRegList
  split
  · rfl
  · split <;> exact caps.length_set ..

/-- A register write either leaves slot 0's `lo` unchanged or sets it
to the written value. -/
theorem writeRegList_headD_lo (rl : Nat) (caps : List Span) (reg val : Nat) :
    ((writeRegList rl caps reg val).headD Span.invalid).lo = (caps.headD Span.invalid).lo ∨
    ((writeRegList rl caps reg val).headD Span.invalid).lo = val := by
  unfold writeRegList
  split
  · exact Or.inl rfl
  · rcases Nat.eq_zero_or_pos (reg / 2) with hz | hp
    · rw [hz]
      cases caps with
      | nil => left; split <;> rfl
      | cons a as =>
        split <;> simp [List.set, List.headD, List.getD]
    · cases caps with
      | nil => left; split <;> rfl
      | cons a as =>
        obtain ⟨k, hk⟩ : ∃ k, reg / 2 = k + 1 := ⟨reg / 2 - 1, by omega⟩
        left
        rw [hk]
        split <;> simp [List.set]

/-- Writing register 1 (the overall-match end) into a non-empty
region sets slot 0's `hi` to the value and keeps its `lo`. -/
theorem writeRegList_reg_one (rl : Nat) (caps : List Span) (val : Nat) (h1 : 1 ≤ rl)
    (h2 : 1 ≤ caps.length) :
    ((writeRegList rl caps 1 val).headD Span.invalid).lo = (caps.headD Span.invalid).lo ∧
    ((writeRegList rl caps 1 val).headD Span.invalid).hi = val := by
  unfold writeRegList
  cases caps with
  | nil => exact absurd h2 (by simp)
  | cons a as =>
    rw [if_neg (by omega)]
    norm_num [List.set]

/-- Writing register 0 into a non-empty region sets slot 0's `lo`. -/
theorem writeRegList_reg_zero (rl : Nat) (caps : List Span) (val : Nat) (h1 : 1 ≤ rl)
    (h2 : 1 ≤ caps.length) :
    ((writeRegList rl caps 0 val).headD Span.invalid).lo = val := by
  unfold writeRegList
  cases caps with
  | nil => exact absurd h2 (by simp)
  | cons a as =>
    rw [if_neg (by omega)]
    norm_num [List.set]

/-- A live (queued) thread: slot 0's `lo` is between the search start
`lo` and the bound `hi`, and the capture region is non-empty. -/
def liveOK (lo hi : Nat) (t : Thread) : Prop :=
  lo ≤ capsLo t ∧ capsLo t ≤ hi ∧ 1 ≤ t.caps.length

/-- The best-match thread: slot 0 is a valid span starting at or
after the search start. -/
def bestOK (lo : Nat) (t : Thread) : Prop :=
  lo ≤ capsLo t ∧ capsLo t ≤ (t.caps.headD Span.invalid).hi

/-- The invariant maintained inside one `step`: active threads are
bounded by the current position, next-queue threads by the position
after the current character (`w` is its byte width). -/
def stateInv (lo w : Nat) (s : State) : Prop :=
  (∀ t ∈ s.active, liveOK lo s.input_pos t) ∧
  (∀ t ∈ s.next, liveOK lo (s.input_pos + w) t) ∧
  (∀ t ∈ s.best_match, bestOK lo t) ∧
  lo ≤ s.input_pos ∧ 1 ≤ s.result_len

theorem popUntilAux_mem {pos : Nat} : ∀ {l : List Thread} {vis : List Nat} {t : Thread}
    {rest : List Thread} {vis' : List Nat},
    popUntilAux pos l vis = some (t, rest, vis') → t ∈ l ∧ ∀ x ∈ rest, x ∈ l := by
  intro l
  induction l with
  | nil => intro vis t rest vis' h; exact absurd h (by simp [popUntilAux])
  | cons a as ih =>
    intro vis t rest vis' h
    unfold popUntilAux at h
    split at h
    · simp only [Option.some.injEq, Prod.mk.injEq] at h
      obtain ⟨rfl, rfl, -⟩ := h
      exact ⟨List.mem_cons_self a as, fun x hx => List.mem_cons_of_mem a hx⟩
    · obtain ⟨h1, h2⟩ := ih h
      exact ⟨List.mem_cons_of_mem a h1, fun x hx => List.mem_cons_of_mem a (h2 x hx)⟩

theorem popActive_mem {s : State} {t : Thread} {s1 : State}
    (h : s.popActiveUntilNotVisited = some (t, s1)) :
    t ∈ s.active ∧ ∀ x ∈ s1.active, x ∈ s.active := by
  unfold State.popActiveUntilNotVisited at h
  cases haux : popUntilAux s.input_pos s.active s.visited with
  | none => rw [haux] at h; exact absurd h (by simp)
  | some tv =>
    obtain ⟨t', rest, vis⟩ := tv
    rw [haux] at h
    simp only [Option.some.injEq, Prod.mk.injEq] at h
    obtain ⟨rfl, h2⟩ := h
    obtain ⟨hm, hsub⟩ := popUntilAux_mem haux
    rw [← h2]
    exact ⟨hm, hsub⟩

theorem pushNext_inv {lo w : Nat} {s : State} {t' : Thread} (hs : stateInv lo w s)
    (ht : liveOK lo s.input_pos t') : stateInv lo w (s.pushNext t') := by
  obtain ⟨ha, hn, hb, hp, hr⟩ := hs
  refine ⟨ha, ?_, hb, hp, hr⟩
  intro x hx
  rcases List.mem_append.mp hx with hx | hx
  · exact hn x hx
  · rw [List.mem_singleton.mp hx]
    exact ⟨ht.1, le_trans ht.2.1 (Nat.le_add_right _ _), ht.2.2⟩

theorem pushActive_inv {lo w : Nat} {s : State} {t' : Thread} (hs : stateInv lo w s)
    (ht : liveOK lo s.input_pos t') : stateInv lo w (s.pushActive t') := by
  obtain ⟨ha, hn, hb, hp, hr⟩ := hs
  refine ⟨?_, hn, hb, hp, hr⟩
  intro x hx
  rcases List.mem_cons.mp hx with hx | hx
  · rw [hx]; exact ht
  · exact ha x hx

theorem accept_inv {lo w : Nat} {s : State} {t : Thread} (hs : stateInv lo w s)
    (ht : liveOK lo s.input_pos t) : stateInv lo w (s.accept t) := by
  obtain ⟨ha, hn, hb, hp, hr⟩ := hs
  refine ⟨by simp [State.accept], hn, ?_, hp, hr⟩
  intro x hx
  have hx2 : ({t with caps := writeRegList s.result_len t.caps 1 s.input_pos} : Thread) = x :=
    Option.some.inj (Option.mem_def.mp hx)
  rw [← hx2]
  obtain ⟨e1, e2⟩ := writeRegList_reg_one s.result_len t.caps s.input_pos hr ht.2.2
  refine ⟨?_, ?_⟩
  · show lo ≤ ((writeRegList s.result_len t.caps 1 s.input_pos).headD Span.invalid).lo
    rw [e1]
    exact ht.1
  · show ((writeRegList s.result_len t.caps 1 s.input_pos).headD Span.invalid).lo
      ≤ ((writeRegList s.result_len t.caps 1 s.input_pos).headD Span.invalid).hi
    rw [e1, e2]
    exact ht.2.1

theorem pushForkClones_inv {lo w : Nat} {s : State} {t : Thread} (branches : List Nat)
    (hs : stateInv lo w s) (ht : liveOK lo s.input_pos t) :
    stateInv lo w (pushForkClones s t branches) := by
  unfold pushForkClones
  generalize branches.reverse.take (branches.length - 1) = l
  induction l generalizing s with
  | nil => exact hs
  | cons p rest ih => exact ih (pushActive_inv hs ht) ht

theorem runThread_inv {bc : Bytecode} {prev c : UChar} {lo w : Nat} :
    ∀ {fuel : Nat} {t : Thread} {s s' : State},
    runThread bc prev c fuel t s = some s' → stateInv lo w s →
    liveOK lo s.input_pos t → stateInv lo w s' := by
  intro fuel
  induction fuel with
  | zero => intro t s s' h _ _; exact absurd h (by simp [runThread])
  | succ n ih =>
    intro t s s' h hs ht
    rw [runThread_unfold] at h
    cases hinstr : bc.instructions[t.pc]? with
    | none => simp only [hinstr] at h; cases h; exact hs
    | some i =>
      cases i with
      | Consume c2 =>
        simp only [hinstr] at h
        split at h <;> cases h
        · exact pushNext_inv hs ht
        · exact hs
      | ConsumeAny =>
        simp only [hinstr] at h
        cases h
        exact pushNext_inv hs ht
      | ConsumeClass ranges =>
        simp only [hinstr] at h
        split at h <;> cases h
        · exact pushNext_inv hs ht
        · exact hs
      | ConsumeOutlined id =>
        simp only [hinstr] at h
        split at h <;> cases h
        · exact pushNext_inv hs ht
        · exact hs
      | Accept =>
        simp only [hinstr] at h
        cases h
        exact accept_inv hs ht
      | Fork2 a b =>
        simp only [hinstr] at h
        exact ih h (pushActive_inv hs ht) ht
      | ForkN branches =>
        simp only [hinstr] at h
        refine ih h (pushForkClones_inv branches hs ht) ?_
        obtain ⟨p1, p2, p3, -, -, -⟩ := pushForkClones_fields s t branches
        rw [p3]
        exact ht
      | Jmp target =>
        simp only [hinstr] at h
        exact ih h hs ht
      | WriteReg rg =>
        simp only [hinstr] at h
        refine ih h hs ?_
        have hl : 1 ≤ (writeRegList s.result_len t.caps rg s.input_pos).length := by
          rw [writeRegList_length]
          exact ht.2.2
        obtain ⟨ht1, ht2, -⟩ := ht
        have hp := hs.2.2.2.1
        simp only [liveOK, capsLo]
        rcases writeRegList_headD_lo s.result_len t.caps rg s.input_pos with he | he <;>
          rw [he]
        · exact ⟨ht1, ht2, hl⟩
        · exact ⟨hp, le_refl _, hl⟩
      | Assertion lk =>
        simp only [hinstr] at h
        split at h
        · exact ih h hs ht
        · cases h; exact hs

theorem stepFuel_inv {bc : Bytecode} {prev c : UChar} {lo w : Nat} :
    ∀ {fuel : Nat} {s s' : State},
    stepFuel bc prev c fuel s = some s' → stateInv lo w s →
    stateInv lo w s' ∧ s'.active = [] := by
  intro fuel
  induction fuel with
  | zero => intro s s' h _; exact absurd h (by simp [stepFuel])
  | succ n ih =>
    intro s s' h hs
    rw [stepFuel_unfold] at h
    cases hpop : s.popActiveUntilNotVisited with
    | none =>
      simp only [hpop] at h
      cases h
      obtain ⟨-, hn, hb, hp, hr⟩ := hs
      exact ⟨⟨by simp, hn, hb, hp, hr⟩, rfl⟩
    | some ts =>
      obtain ⟨t, s1⟩ := ts
      simp only [hpop] at h
      cases hrun : runThread bc prev c n t s1 with
      | none => rw [hrun] at h; exact absurd h (by simp)
      | some s2 =>
        simp only [hrun] at h
        obtain ⟨e1, e2, e3, e4, e5⟩ := popActive_shape hpop
        obtain ⟨hm, hsub⟩ := popActive_mem hpop
        have hs1 : stateInv lo w s1 := by
          obtain ⟨ha, hn, hb, hp, hr⟩ := hs
          refine ⟨?_, ?_, ?_, ?_, ?_⟩
          · intro x hx
            rw [e3]
            exact ha x (hsub x hx)
          · rw [e4, e3]
            exact hn
          · rw [e5]
            exact hb
          · rw [e3]
            exact hp
          · rw [e2]
            exact hr
        have ht1 : liveOK lo s1.input_pos t := by
          rw [e3]
          exact hs.1 t hm
        exact ih h (runThread_inv hrun hs1 ht1)

/-- The invariant at the head of each iteration of the character
loop: `step` has drained the queues, so `next` is empty and `active`
is bounded by the current position. -/
def loopInv (lo : Nat) (s : State) : Prop :=
  (∀ t ∈ s.active, liveOK lo s.input_pos t) ∧ s.next = [] ∧
  (∀ t ∈ s.best_match, bestOK lo t) ∧ lo ≤ s.input_pos ∧ 1 ≤ s.result_len

theorem loopInv_stateInv {lo : Nat} (w : Nat) {s : State} (h : loopInv lo s) :
    stateInv lo w s := by
  obtain ⟨ha, hn, hb, hp, hr⟩ := h
  exact ⟨ha, by rw [hn]; simp, hb, hp, hr⟩

theorem mainLoop_inv {bc : Bytecode} {anchored fm : Bool} {fuel : Nat} {lo : Nat} :
    ∀ {chars : List Char} {prev : UChar} {s : State} {out : LoopOutcome},
    mainLoop bc anchored fm fuel chars prev s = some out → loopInv lo s →
    match out with
    | .earlyWrite s1 => (∀ t ∈ s1.best_match, bestOK lo t) ∧ s1.best_match.isSome = true
    | .finished s1 _ => loopInv lo s1
    | .earlyFalse => True := by
  intro chars
  induction chars with
  | nil =>
    intro prev s out h hinv
    cases h
    exact hinv
  | cons c rest ih =>
    intro prev s out h hinv
    rw [mainLoop_unfold] at h
    cases hs1 : stepFuel bc prev (UChar.ofChar c) fuel s with
    | none => simp only [hs1] at h; exact absurd h (by simp)
    | some s1 =>
      simp only [hs1] at h
      obtain ⟨hi1, hact⟩ :=
        stepFuel_inv (w := lenUtf8 c) hs1 (loopInv_stateInv _ hinv)
      obtain ⟨ha1, hn1, hb1, hp1, hr1⟩ := hi1
      cases hbm : s1.best_match with
      | some wt =>
        simp only [hbm] at h
        split at h
        · cases h
          exact ⟨hb1, by rw [hbm]; rfl⟩
        · refine ih h ⟨?_, ?_, ?_, ?_, ?_⟩
          · intro x hx
            exact hn1 x hx
          · show s1.active = []
            exact hact
          · exact hb1
          · exact le_trans hp1 (Nat.le_add_right _ _)
          · exact hr1
      | none =>
        simp only [hbm] at h
        split at h
        · cases h; trivial
        · refine ih h ⟨?_, ?_, ?_, ?_, ?_⟩
          · intro x hx
            rcases List.mem_append.mp hx with hx | hx
            · exact hn1 x hx
            · rw [List.mem_singleton.mp hx]
              have hrep : 1 ≤ (List.replicate s1.result_len Span.invalid).length := by
                rw [List.length_replicate]
                exact hr1
              have hlt : 1 ≤ (writeRegList s1.result_len
                  (List.replicate s1.result_len Span.invalid) 0
                  (s1.input_pos + lenUtf8 c)).length := by
                rw [writeRegList_length]
                exact hrep
              have hlo := writeRegList_reg_zero s1.result_len
                (List.replicate s1.result_len Span.invalid) (s1.input_pos + lenUtf8 c)
                hr1 hrep
              refine ⟨?_, ?_, hlt⟩
              · show lo ≤ ((writeRegList s1.result_len
                    (List.replicate s1.result_len Span.invalid) 0
                    (s1.input_pos + lenUtf8 c)).headD Span.invalid).lo
                rw [hlo]
                exact le_trans hp1 (Nat.le_add_right _ _)
              · show ((writeRegList s1.result_len
                    (List.replicate s1.result_len Span.invalid) 0
                    (s1.input_pos + lenUtf8 c)).headD Span.invalid).lo
                  ≤ s1.input_pos + lenUtf8 c
                rw [hlo]
          · show s1.active = []
            exact hact
          · exact hb1
          · exact le_trans hp1 (Nat.le_add_right _ _)
          · exact hr1

theorem copySlots_headD (caps : List Span) {rl : Nat} {res : List Span} (h1 : 1 ≤ rl)
    (h2 : res ≠ []) :
    (copySlots caps rl res).headD Span.invalid = caps.headD Span.invalid := by
  cases rl with
  | zero => omega
  | succ n =>
    cases res with
    | nil => exact absurd rfl h2
    | cons r rs => rfl

theorem writeBestMatch_span {s1 : State} {caps : List Span} (lo : Nat)
    (hbest : ∀ t ∈ s1.best_match, bestOK lo t) (hsome : s1.best_match.isSome = true)
    (hcc : 1 ≤ s1.capture_count) (hlen : 1 ≤ caps.length) :
    lo ≤ ((s1.writeBestMatch caps).headD Span.invalid).lo ∧
      ((s1.writeBestMatch caps).headD Span.invalid).lo
        ≤ ((s1.writeBestMatch caps).headD Span.invalid).hi := by
  obtain ⟨wt, hwt⟩ := Option.isSome_iff_exists.mp hsome
  have hb := hbest wt (by rw [hwt]; rfl)
  unfold State.writeBestMatch
  rw [hwt]
  rw [copySlots_headD wt.caps (Nat.le_min.mpr ⟨hcc, hlen⟩)
    (List.ne_nil_of_length_pos hlen)]
  exact ⟨hb.1, hb.2⟩

/-- Every successful `find_captures` from a freshly reset state fills
slot 0 with a valid span starting at or after the span start. -/
theorem findCaptures_success_span (vm : PikeVM) (inp : Input) (s : State)
    (caps : List Span) (fuel : Nat) (caps' : List Span)
    (ha : s.active = []) (hn : s.next = []) (hb : s.best_match = none)
    (hlen : 1 ≤ caps.length) (hcc : 1 ≤ s.capture_count)
    (h : findCapturesFuel vm inp s caps fuel = some (true, caps')) :
    inp.span.lo ≤ (caps'.headD Span.invalid).lo ∧
      (caps'.headD Span.invalid).lo ≤ (caps'.headD Span.invalid).hi := by
  by_cases hv : inp.valid = true
  case neg =>
    unfold findCapturesFuel at h
    rw [if_pos (by simpa using hv)] at h
    simp at h
  case pos =>
    rw [findCapturesFuel_valid_eq hv] at h
    have hentry : loopInv inp.span.lo (entrySetup s inp.span.lo caps) := by
      have hrep : 1 ≤ (List.replicate caps.length Span.invalid).length := by
        rw [List.length_replicate]
        exact hlen
      have hlo := writeRegList_reg_zero caps.length
        (List.replicate caps.length Span.invalid) inp.span.lo hlen hrep
      refine ⟨?_, hn, by rw [show (entrySetup s inp.span.lo caps).best_match
        = s.best_match from rfl, hb]; simp, le_refl _, hlen⟩
      intro x hx
      rcases List.mem_cons.mp hx with hx | hx
      · rw [hx]
        refine ⟨?_, ?_, ?_⟩
        · show inp.span.lo ≤ ((writeRegList caps.length
            (List.replicate caps.length Span.invalid) 0 inp.span.lo).headD Span.invalid).lo
          rw [hlo]
        · show ((writeRegList caps.length
            (List.replicate caps.length Span.invalid) 0 inp.span.lo).headD Span.invalid).lo
            ≤ inp.span.lo
          rw [hlo]
        · show 1 ≤ (writeRegList caps.length
            (List.replicate caps.length Span.invalid) 0 inp.span.lo).length
          rw [writeRegList_length]
          exact hrep
      · rw [ha] at hx
        exact absurd hx (by simp)
    cases hml : mainLoop vm.bytecode inp.anchored inp.first_match fuel
        (charsIn inp.subject inp.span.lo inp.span.hi)
        (findPrevChar inp.subject inp.span.lo) (entrySetup s inp.span.lo caps) with
    | none => rw [hml] at h; exact absurd h (by simp)
    | some out =>
      have hsh := mainLoop_shape hml
      have hminv := mainLoop_inv hml hentry
      cases out with
      | earlyFalse => simp only [hml] at h; exact absurd h (by simp)
      | earlyWrite s1 =>
        simp only [hml, Option.some.injEq, Prod.mk.injEq] at h
        rw [← h.2]
        exact writeBestMatch_span inp.span.lo hminv.1 hminv.2
          (by rw [hsh.1]; exact hcc) hlen
      | finished s1 p1 =>
        simp only [hml] at h
        cases hsf : stepFuel vm.bytecode p1 (finalStepChar inp.subject inp.span.hi)
            fuel s1 with
        | none => rw [hsf] at h; exact absurd h (by simp)
        | some s2 =>
          simp only [hsf] at h
          obtain ⟨hi2, -⟩ := stepFuel_inv (w := 0) hsf
            (loopInv_stateInv 0 hminv)
          split at h
          · simp only [Option.some.injEq, Prod.mk.injEq] at h
            rw [← h.2]
            have hcc2 : 1 ≤ s2.capture_count := by
              rw [(stepFuel_shape hsf).1, hsh.1]
              exact hcc
            exact writeBestMatch_span inp.span.lo hi2.2.2.1 (by assumption) hcc2 hlen
          · simp at h

/-! ## Finiteness of the all-matches iteration. -/

/-- One unfolding of `allMatchesFuel` at positive fuel. -/
theorem allMatchesFuel_unfold (vm : PikeVM) (inp : Input) (st : State) (spans : List Span)
    (fuel : Nat) :
    allMatchesFuel vm inp st spans (fuel + 1) =
      if ¬ inp.span.valid then some []
      else
        match findCapturesFuel vm inp st.reset spans fuel with
        | none => none
        | some (false, _) => some []
        | some (true, spans1) =>
          match allMatchesFuel vm
              {inp with span := {inp.span with
                lo := nextMatchStart {subject := inp.subject, span := spans1.headD Span.invalid}}}
              st spans1 fuel with
          | none => none
          | some ms => some ({subject := inp.subject, span := spans1.headD Span.invalid} :: ms) :=
  rfl

/-- A successful match whose slot-0 span is valid and starts inside
the remaining span makes `next_match_start` strictly advance. -/
theorem nextMatchStart_ge {m : RMatch} {lo : Nat} (h1 : lo ≤ m.span.lo)
    (h2 : m.span.lo ≤ m.span.hi) : lo + 1 ≤ nextMatchStart m := by
  simp only [nextMatchStart]
  split
  · split
    · omega
    · split
      · omega
      · split
        · omega
        · split <;> omega
  · rename_i hne
    have : ¬ m.span.lo = m.span.hi := by simpa [Span.isEmptySpan] using hne
    omega

/-- However much fuel the iteration gets, the number of matches it
yields is bounded by the byte length of the remaining span: every
success strictly advances the start, and the iteration stops once the
start passes the span end. -/
theorem allMatches_length_bound {vm : PikeVM} (hcc : 1 ≤ vm.capture_count) :
    ∀ (fuel : Nat) (inp : Input) (st : State) (spans : List Span) (l : List RMatch),
    st.capture_count = vm.capture_count → 1 ≤ spans.length →
    allMatchesFuel vm inp st spans fuel = some l →
    l.length ≤ inp.span.hi + 1 - inp.span.lo := by
  intro fuel
  induction fuel with
  | zero => intro inp st spans l _ _ h; exact absurd h (by simp [allMatchesFuel])
  | succ n ih =>
    intro inp st spans l hstcc hsl h
    rw [allMatchesFuel_unfold] at h
    split at h
    · cases h; simp
    · rename_i hval
      have hval' : inp.span.valid = true := by
        by_contra hc
        exact hval (by simpa using hc)
      have hlohi : inp.span.lo ≤ inp.span.hi := by
        simpa [Span.valid] using hval'
      cases hf : findCapturesFuel vm inp st.reset spans n with
      | none => rw [hf] at h; exact absurd h (by simp)
      | some r =>
        obtain ⟨b, spans1⟩ := r
        cases b with
        | false => simp only [hf] at h; cases h; simp
        | true =>
          simp only [hf] at h
          have hccr : 1 ≤ st.reset.capture_count := by
            show 1 ≤ st.capture_count
            rw [hstcc]
            exact hcc
          have hspan := findCaptures_success_span vm inp st.reset spans n spans1 rfl rfl rfl
            hsl hccr hf
          have hlen1 : spans1.length = spans.length := by
            rcases findCaptures_result_cases vm inp st.reset spans n with hx | hx | ⟨s1, -, hx⟩
            · rw [hx] at hf; exact absurd hf (by simp)
            · rw [hx] at hf
              simp only [Option.some.injEq, Prod.mk.injEq] at hf
              exact absurd hf.1 (by simp)
            · rw [hx] at hf
              simp only [Option.some.injEq, Prod.mk.injEq] at hf
              rw [← hf.2]
              exact (writeBestMatch_frame s1 spans).1
          have hadv : inp.span.lo + 1
              ≤ nextMatchStart ⟨inp.subject, spans1.headD Span.invalid⟩ :=
            nextMatchStart_ge (m := ⟨inp.subject, spans1.headD Span.invalid⟩) hspan.1 hspan.2
          cases hrec : allMatchesFuel vm
              {inp with span := ⟨nextMatchStart ⟨inp.subject, spans1.headD Span.invalid⟩,
                inp.span.hi⟩} st spans1 n with
          | none => rw [hrec] at h; exact absurd h (by simp)
          | some ms =>
            simp only [hrec, Option.some.injEq] at h
            have hms := ih _ st spans1 ms hstcc (by rw [hlen1]; exact hsl) hrec
            have hms' : ms.length
                ≤ inp.span.hi + 1 - nextMatchStart ⟨inp.subject, spans1.headD Span.invalid⟩ :=
              hms
            rw [← h]
            simp only [List.length_cons]
            omega

/-! ## The leading UTF-8 byte determines the character width. -/

theorem lenUtf8_pos (c : Char) : 1 ≤ lenUtf8 c := by
  unfold lenUtf8
  split
  · omega
  · split
    · omega
    · split <;> omega

theorem utf8Len_append (l1 l2 : List Char) :
    utf8Len (l1 ++ l2) = utf8Len l1 + utf8Len l2 := by
  induction l1 with
  | nil => simp [utf8Len]
  | cons c rest ih => simp [utf8Len, ih]; omega

theorem charUtf8Bytes_length (c : Char) : (charUtf8Bytes c).length = lenUtf8 c := by
  simp only [charUtf8Bytes, lenUtf8]
  split
  · rfl
  · split
    · rfl
    · split <;> rfl

theorem utf8Bytes_append (l1 l2 : List Char) :
    utf8Bytes (l1 ++ l2) = utf8Bytes l1 ++ utf8Bytes l2 := by
  induction l1 with
  | nil => rfl
  | cons c rest ih => simp [utf8Bytes, ih]

theorem utf8Bytes_length (l : List Char) : (utf8Bytes l).length = utf8Len l := by
  induction l with
  | nil => rfl
  | cons c rest ih => simp [utf8Bytes, utf8Len, charUtf8Bytes_length, ih]

theorem charUtf8Bytes_ne_nil (c : Char) : charUtf8Bytes c ≠ [] := by
  simp only [charUtf8Bytes]
  split
  · simp
  · split
    · simp
    · split <;> simp

/-- The byte at a character boundary is the leading byte of the
character starting there. -/
theorem byteAt_boundary (pre post : List Char) (c : Char) :
    byteAt (pre ++ c :: post) (utf8Len pre) = (charUtf8Bytes c).headD 0 := by
  unfold byteAt
  rw [utf8Bytes_append]
  rw [show utf8Len pre = (utf8Bytes pre).length from (utf8Bytes_length pre).symm]
  rw [List.getD_append_right _ _ _ _ (le_refl _)]
  rw [Nat.sub_self]
  show (charUtf8Bytes c ++ utf8Bytes post).getD 0 0 = (charUtf8Bytes c).headD 0
  cases hcb : charUtf8Bytes c with
  | nil => exact absurd hcb (charUtf8Bytes_ne_nil c)
  | cons b bs => rfl

/-- For an empty match at an interior character boundary,
`next_match_start` advances by exactly the width of the character
starting there. -/
theorem nextMatchStart_interior (pre post : List Char) (c : Char) (m : RMatch)
    (hsub : m.subject = pre ++ c :: post) (hemp : m.span.isEmptySpan = true)
    (hlo : m.span.lo = utf8Len pre) : nextMatchStart m = m.span.lo + lenUtf8 c := by
  unfold nextMatchStart
  rw [if_pos hemp]
  have hne : ¬ m.span.lo = utf8Len m.subject := by
    rw [hsub, hlo, utf8Len_append]
    have h1 : 1 ≤ lenUtf8 c := lenUtf8_pos c
    show ¬ _
    simp only [utf8Len]
    omega
  rw [if_neg hne]
  rw [hsub, hlo, byteAt_boundary]
  by_cases h1 : c.toNat < 0x80
  · have hb : (charUtf8Bytes c).headD 0 = c.toNat := by
      simp only [charUtf8Bytes]
      rw [if_pos h1]
      rfl
    rw [hb, if_pos h1]
    unfold lenUtf8
    rw [if_pos h1]
  · by_cases h2 : c.toNat < 0x800
    · have hb : (charUtf8Bytes c).headD 0 = 0xC0 + c.toNat / 0x40 := by
        simp only [charUtf8Bytes]
        rw [if_neg h1, if_pos h2]
        rfl
      have hd : c.toNat / 0x40 < 0x20 := Nat.div_lt_of_lt_mul (by omega)
      rw [hb, if_neg (by omega), if_pos (by omega)]
      unfold lenUtf8
      rw [if_neg h1, if_pos h2]
    · by_cases h3 : c.toNat < 0x10000
      · have hb : (charUtf8Bytes c).headD 0 = 0xE0 + c.toNat / 0x1000 := by
          simp only [charUtf8Bytes]
          rw [if_neg h1, if_neg h2, if_pos h3]
          rfl
        have hd : c.toNat / 0x1000 < 0x10 := Nat.div_lt_of_lt_mul (by omega)
        rw [hb, if_neg (by omega), if_neg (by omega), if_pos (by omega)]
        unfold lenUtf8
        rw [if_neg h1, if_neg h2, if_pos h3]
      · have hb : (charUtf8Bytes c).headD 0 = 0xF0 + c.toNat / 0x40000 := by
          simp only [charUtf8Bytes]
          rw [if_neg h1, if_neg h2, if_neg h3]
          rfl
        rw [hb, if_neg (by omega), if_neg (by omega), if_neg (by omega)]
        unfold lenUtf8
        rw [if_neg h1, if_neg h2, if_neg h3]

/-- C7: the next-start computation and the finiteness of the
all-matches iteration.  (i) A non-empty match continues at its end.
(ii) An empty match at the end of the subject continues one past the
end.  (iii) An empty match at an interior character boundary advances
by the UTF-8 width of the character starting there (the width the
code decodes from the leading byte).  (iv) However much fuel the
iteration is given, `find_all`/`find_all_captures` yield at most
`span.to + 1 - span.from` matches: each success strictly advances the
start and iteration stops once the start passes the span end, so the
yielded sequence is finite. -/
theorem c7_next_start_and_finite_iteration :
    (∀ m : RMatch, m.span.isEmptySpan = false → nextMatchStart m = m.span.hi) ∧
    (∀ m : RMatch, m.span.isEmptySpan = true → m.span.lo = utf8Len m.subject →
      nextMatchStart m = m.span.lo + 1) ∧
    (∀ (pre post : List Char) (c : Char) (m : RMatch), m.subject = pre ++ c :: post →
      m.span.isEmptySpan = true → m.span.lo = utf8Len pre →
      nextMatchStart m = m.span.lo + lenUtf8 c) ∧
    (∀ (vm : PikeVM) (fuel : Nat) (inp : Input) (st : State) (spans : List Span)
      (l : List RMatch), 1 ≤ vm.capture_count → st.capture_count = vm.capture_count →
      1 ≤ spans.length → allMatchesFuel vm inp st spans fuel = some l →
      l.length ≤ inp.span.hi + 1 - inp.span.lo) := by
  refine ⟨?_, ?_, ?_, ?_⟩
  · intro m hm
    unfold nextMatchStart
    rw [if_neg (by simp [hm])]
  · intro m hm hend
    unfold nextMatchStart
    rw [if_pos hm, if_pos hend]
  · exact nextMatchStart_interior
  · intro vm fuel inp st spans l hcc hstcc hsl h
    exact allMatches_length_bound hcc fuel inp st spans l hstcc hsl h

/-- A concrete instantiation of every part of the previous theorem:
the pattern `ab` iterated over the subject `"aβc"` (where `β` is
two bytes wide), giving concrete uses of all three next-start cases
and of the iteration bound. -/
theorem c7_witness :
    nextMatchStart ⟨['a', 'b'], ⟨0, 2⟩⟩ = 2 ∧
    nextMatchStart ⟨['a', 'b'], ⟨2, 2⟩⟩ = 3 ∧
    nextMatchStart ⟨['a', 'β', 'c'], ⟨1, 1⟩⟩ = 3 ∧
    (allMatchesFuel vmAB inpAB vmAB.newState [Span.invalid] 40
        = some [⟨['a', 'b'], ⟨0, 2⟩⟩] ∧
      (1 : Nat) ≤ inpAB.span.hi + 1 - inpAB.span.lo) := by
  refine ⟨?_, ?_, ?_, ?_⟩
  · exact c7_next_start_and_finite_iteration.1 ⟨['a', 'b'], ⟨0, 2⟩⟩ (by decide)
  · exact c7_next_start_and_finite_iteration.2.1 ⟨['a', 'b'], ⟨2, 2⟩⟩ (by decide) (by decide)
  · have := c7_next_start_and_finite_iteration.2.2.1 ['a'] ['c'] 'β'
      ⟨['a', 'β', 'c'], ⟨1, 1⟩⟩ rfl (by decide) (by decide)
    simpa using this
  · have he : allMatchesFuel vmAB inpAB vmAB.newState [Span.invalid] 40
        = some [⟨['a', 'b'], ⟨0, 2⟩⟩] := by decide
    refine ⟨he, ?_⟩
    have := c7_next_start_and_finite_iteration.2.2.2 vmAB 40 inpAB vmAB.newState
      [Span.invalid] [⟨['a', 'b'], ⟨0, 2⟩⟩] (by decide) rfl (by decide) he
    simpa using this

end Gregex
